import Mathlib

/-!
# Bill splitter allocation and reconciliation engine: a shallow embedding

This file embeds the money-handling core of the bill-splitter backend
(`app.py`, `receipt_cv.py`, `api/routes.py`) in Lean 4 and proves the
specified properties about it.

Modelling conventions:
* Currency amounts are rationals (`ℚ`).  Python's `round(x, 2)` (round half
  to even at two decimals) is modelled exactly by `round2`; `round(x)` by
  `roundHalfEven`.  The idealisation replaces IEEE-754 doubles by exact
  rationals, which is the standard reading of two-decimal currency code.
* Python `//` and `%` on integers with a positive divisor coincide with
  `Int.ediv` / `Int.emod`, which the embedding uses.
* Python dicts are association lists with first-occurrence update
  (`dictInsert`), preserving insertion order.
* The mutable global bill of the source is threaded explicitly: every
  operation takes the current `Bill` and returns the updated one (fallible
  operations return `Except String Bill` / `Option`, mirroring the source's
  early error returns, which happen before any mutation is persisted).
-/

namespace BillSplitter

/-! ## Rounding utilities -/

/-- Round half to even to the nearest integer, exactly Python's `round(x)`
on an exactly-represented value. -/
def roundHalfEven (x : ℚ) : ℤ :=
  let f := ⌊x⌋
  let r := x - f
  if r < 1/2 then f
  else if 1/2 < r then f + 1
  else if f % 2 = 0 then f else f + 1

/-- Python's `round(x, 2)`: round half to even at two decimal places. -/
def round2 (x : ℚ) : ℚ :=
  ((roundHalfEven (x * 100) : ℤ) : ℚ) / 100

/-- `x` is a whole number of cents, i.e. a two-decimal currency value. -/
def IsCents (x : ℚ) : Prop := ∃ n : ℤ, x = (n : ℚ) / 100

/-! ## Data model

`receipt_cv.py` / `app.py` represent the bill as a JSON document.  The fields
the allocation engine reads and writes are embedded; purely descriptive fields
(merchant name, date, category, ...) are omitted since no operation touches
them.  The optional `rounding_adj` / `error_diff` fields on an item are absent
until `evaluate_and_adjust_bill` records a correction there, mirroring the
dict keys added dynamically by the source. -/

structure ItemShare where
  id : ℕ
  value : ℚ
  percentage : ℚ
  split_type : Option String := none
  original_price : Option ℚ := none
deriving DecidableEq

structure Item where
  id : ℕ
  nett_price : ℚ
  quantity : ℕ
  rounding_adj : Option ℚ := none
  error_diff : Option ℚ := none
deriving DecidableEq

structure Participant where
  email : String
  total_paid : ℚ
  items_paid : List ItemShare
deriving DecidableEq

structure Bill where
  items : List Item
  nett_amount : ℚ
  rounding_adj : ℚ
  participants : List Participant
  split_method : String
deriving DecidableEq

/-- `sum(item["nett_price"] * item["quantity"] for item in items)`. -/
def itemsNettTotal (items : List Item) : ℚ :=
  (items.map (fun it => it.nett_price * (it.quantity : ℚ))).sum

/-- Sum of `value` over a share list. -/
def sumValues (shares : List ItemShare) : ℚ :=
  (shares.map (fun s => s.value)).sum

/-! ## Receipt reconciliation: `receipt_cv.evaluate_and_adjust_bill` -/

/-- `receipt_cv.py` lines 234-284.  Computes
`error_diff = nett_amount - (rounding_adj + items_nett_price)`, then adds
`rounding_adj` (if nonzero) and `error_diff` (if nonzero) to the first item's
`nett_price`, recording each as a field on that item. -/
def evaluate_and_adjust_bill (b : Bill) : Bill :=
  match b.items with
  | [] => b
  | first_item :: rest =>
    let items_nett_price := itemsNettTotal (first_item :: rest)
    let error_diff := b.nett_amount - (b.rounding_adj + items_nett_price)
    let first1 :=
      if b.rounding_adj ≠ 0 then
        { first_item with
            nett_price := round2 (first_item.nett_price + b.rounding_adj),
            rounding_adj := some b.rounding_adj }
      else first_item
    let first2 :=
      if error_diff ≠ 0 then
        { first1 with
            nett_price := round2 (first1.nett_price + error_diff),
            error_diff := some (round2 error_diff) }
      else first1
    { b with items := first2 :: rest }

/-! ## Initial participant assignment: `receipt_cv.initialize_participants` -/

/-- The per-item payment record created for the first participant:
`{"id": item["id"], "percentage": 100, "value": item["nett_price"]}`. -/
def initItemShare (it : Item) : ItemShare :=
  { id := it.id, percentage := 100, value := it.nett_price }

/-- `receipt_cv.py` lines 188-232 (the participant-construction part).  The
first participant receives a share per item and
`total_paid = round(Σ nett_price * quantity, 2)`; the rest start empty. -/
def initialize_participants (items : List Item) (emails : List String) :
    List Participant :=
  match emails with
  | [] => []
  | e :: rest =>
    { email := e,
      total_paid := round2 (itemsNettTotal items),
      items_paid := items.map initItemShare } ::
    rest.map (fun e2 => { email := e2, total_paid := 0, items_paid := [] })

/-! ## Post-split reconciliation: `app.evaluate_chat_splitting` -/

/-- One pass of the adjustment loop of `evaluate_chat_splitting`
(`app.py` lines 143-155): participant at enumerate-index `i` gets
`adjustment = cents_per + (1 if i < remaining else 0)` and
`total_paid = round(total_paid + (-adjustment / 100), 2)`. -/
def adjustParticipants (cents_per remaining : ℤ) :
    ℕ → List Participant → List Participant
  | _, [] => []
  | i, p :: rest =>
    { p with
        total_paid :=
          round2 (p.total_paid +
            (-((cents_per + if (i : ℤ) < remaining then 1 else 0 : ℤ) : ℚ)) / 100) } ::
    adjustParticipants cents_per remaining (i + 1) rest

/-- `app.py` lines 103-171.  Returns the updated bill and the value returned
by the Python function (`none` models the fall-through `return None` branch
reached when `difference_cents == 0` despite `|difference| >= 0.01`, which is
impossible on two-decimal inputs). -/
def evaluate_chat_splitting (b : Bill) : Bill × Option ℚ :=
  if b.participants.isEmpty then (b, some 0)
  else
    let total_sum := (b.participants.map (fun p => p.total_paid)).sum
    let difference := round2 (total_sum - b.nett_amount)
    if 1/100 ≤ |difference| then
      let difference_cents := roundHalfEven (difference * 100)
      if difference_cents ≠ 0 then
        let n : ℤ := (b.participants.length : ℤ)
        let cents_per := difference_cents / n
        let remaining := difference_cents % n
        let participants1 := adjustParticipants cents_per remaining 0 b.participants
        let new_total := (participants1.map (fun p => p.total_paid)).sum
        ({ b with participants := participants1 }, some new_total)
      else (b, none)
    else (b, some total_sum)

/-- The per-participant integer-cent adjustment applied by
`evaluate_chat_splitting` when the difference is `d` cents over `n`
participants: floor-division share plus one extra cent for the first
`d % n` participants (Python `//`/`%`, i.e. `Int.ediv`/`Int.emod` since
`n > 0`). -/
def pyAdj (d : ℤ) (n : ℕ) (i : ℕ) : ℤ :=
  d / (n : ℤ) + (if (i : ℤ) < d % (n : ℤ) then 1 else 0)

/-! ## Percentage allocation: `app.divide_items_tools` and
`routes.divide_items_endpoint` (identical money logic) -/

/-- The share dict appended by the divide loop:
`{"id": ..., "value": round(item_value * (percentage / 100), 2),
"percentage": ..., "split_type": "percentage", "original_price": item_value}`. -/
def mkShare (it : Item) (percentage : ℚ) : ItemShare :=
  { id := it.id,
    value := round2 (it.nett_price * (percentage / 100)),
    percentage := percentage,
    split_type := some "percentage",
    original_price := some it.nett_price }

/-- `participant["items_paid"].append(share); participant["total_paid"] += share["value"]`. -/
def appendShare (p : Participant) (s : ItemShare) : Participant :=
  { p with items_paid := p.items_paid ++ [s], total_paid := p.total_paid + s.value }

/-- `next(p for p in data["participants"] if p["email"] == email)` followed by
the in-place mutation: update the first participant with the given email;
`none` models the `StopIteration` raised when no participant matches. -/
def applyShare (ps : List Participant) (email : String) (s : ItemShare) :
    Option (List Participant) :=
  match ps with
  | [] => none
  | p :: rest =>
    if p.email = email then some (appendShare p s :: rest)
    else (applyShare rest email s).map (fun l => p :: l)

/-- Inner loop `for email, percentage in percentage_dict.items()` for one item. -/
def allocItem (ps : List Participant) (it : Item) (pcts : List (String × ℚ)) :
    Option (List Participant) :=
  match pcts with
  | [] => some ps
  | pr :: rest =>
    match applyShare ps pr.1 (mkShare it pr.2) with
    | none => none
    | some ps1 => allocItem ps1 it rest

/-- Outer loop `for item in data["items"]`. -/
def allocAll (ps : List Participant) (items : List Item)
    (pcts : List (String × ℚ)) : Option (List Participant) :=
  match items with
  | [] => some ps
  | it :: its =>
    match allocItem ps it pcts with
    | none => none
    | some ps1 => allocAll ps1 its pcts

/-- `participant["items_paid"] = []; participant["total_paid"] = 0.0`. -/
def clearParticipant (p : Participant) : Participant :=
  { p with items_paid := [], total_paid := 0 }

/-- `app.py` lines 248-289 / `routes.py` lines 182-226 (identical logic): the
percentage-map allocation.  A percentage map is an association list with
distinct keys in insertion order, the embedding of the Python dict produced by
`parse_percentage_string`.  Errors are returned before any mutation is
persisted, so the error branches carry no bill. -/
def divide_items (b : Bill) (pcts : List (String × ℚ)) : Except String Bill :=
  if 1/100 < |(pcts.map (fun pr => pr.2)).sum - 100| then
    Except.error ("Error: Percentages must sum to 100%")
  else
    match allocAll (b.participants.map clearParticipant) b.items pcts with
    | none => Except.error ("Error dividing items")
    | some ps => Except.ok { b with participants := ps, split_method := "divide_based" }

/-! ## Item transfer: `app.move_item_tool` and `routes.move_item_endpoint` -/

/-- `next((item for item in items if item["id"] == item_id), None)`. -/
def findId : List ItemShare → ℕ → Option ItemShare
  | [], _ => none
  | s :: rest, k => if s.id = k then some s else findId rest k

/-- `[item for item in items if item["id"] != item_id]`. -/
def removeId : List ItemShare → ℕ → List ItemShare
  | [], _ => []
  | s :: rest, k => if s.id = k then removeId rest k else s :: removeId rest k

/-- In-place consolidation of the first share with the given id:
`existing_item["value"] += ...; existing_item["percentage"] += ...`. -/
def mergeFirst : List ItemShare → ℕ → ItemShare → List ItemShare
  | [], _, _ => []
  | s :: rest, k, itm =>
    if s.id = k then
      { s with value := s.value + itm.value, percentage := s.percentage + itm.percentage } :: rest
    else s :: mergeFirst rest k itm

/-- The shares with a given item id (used to state cross-participant
conservation). -/
def selectId : List ItemShare → ℕ → List ItemShare
  | [], _ => []
  | s :: rest, k => if s.id = k then s :: selectId rest k else selectId rest k

/-- Sum of `value` over every share with item id `k`, across a participant
list: the per-item cross-participant conservation quantity of the spec. -/
def itemTotal (ps : List Participant) (k : ℕ) : ℚ :=
  (ps.map (fun p => sumValues (selectId p.items_paid k))).sum

/-- The `for item_id in item_ids` loop of `app.move_item_tool`
(`app.py` lines 210-233), accumulating `total_value_moved`; `none` models the
early error return for a missing item id. -/
def move_loop_tool (src dst : Participant) (ids : List ℕ) (moved : ℚ) :
    Option (Participant × Participant × ℚ) :=
  match ids with
  | [] => some (src, dst, moved)
  | k :: rest =>
    match findId src.items_paid k with
    | none => none
    | some item_to_move =>
      let src1 := { src with items_paid := removeId src.items_paid k }
      let dst1 :=
        match findId dst.items_paid k with
        | some _ => { dst with items_paid := mergeFirst dst.items_paid k item_to_move }
        | none => { dst with items_paid := dst.items_paid ++ [item_to_move] }
      move_loop_tool src1 dst1 rest (moved + item_to_move.value)

/-- `app.py` lines 194-243: move items then shift `total_paid` by the total
value moved.  The source and destination are the two distinct participants
resolved by fuzzy matching. -/
def move_item_tool (src dst : Participant) (ids : List ℕ) :
    Option (Participant × Participant) :=
  match move_loop_tool src dst ids 0 with
  | none => none
  | some (s, d, total) =>
    some ({ s with total_paid := s.total_paid - total },
          { d with total_paid := d.total_paid + total })

/-- The `for item_id in request.item_ids` loop of `routes.move_item_endpoint`
(`routes.py` lines 125-138): same removal, but the moved share is always
appended to the destination, with no consolidation. -/
def move_loop_endpoint (src dst : Participant) (ids : List ℕ) (moved : ℚ) :
    Option (Participant × Participant × ℚ) :=
  match ids with
  | [] => some (src, dst, moved)
  | k :: rest =>
    match findId src.items_paid k with
    | none => none
    | some item_to_move =>
      let src1 := { src with items_paid := removeId src.items_paid k }
      let dst1 := { dst with items_paid := dst.items_paid ++ [item_to_move] }
      move_loop_endpoint src1 dst1 rest (moved + item_to_move.value)

/-- `routes.py` `/move-item`: loop then shift `total_paid`. -/
def move_item_endpoint (src dst : Participant) (ids : List ℕ) :
    Option (Participant × Participant) :=
  match move_loop_endpoint src dst ids 0 with
  | none => none
  | some (s, d, total) =>
    some ({ s with total_paid := s.total_paid - total },
          { d with total_paid := d.total_paid + total })

/-! ## Equal split: `app.split_equally_tool` and `routes.split_equally_endpoint`

The tool builds a Python dict `percentages[participant["email"]] = base`,
renders it as `"email:p%"` strings and re-parses it with
`parse_percentage_string`; for emails free of `:`/`,` (all stored emails) the
round trip is the identity on the association list, so it is elided here. -/

/-- Python dict insertion `m[k] = v`: update the existing key in place or
append. -/
def dictInsert : List (String × ℚ) → String → ℚ → List (String × ℚ)
  | [], k, v => [(k, v)]
  | pr :: rest, k, v => if pr.1 = k then (k, v) :: rest else pr :: dictInsert rest k v

/-- The dict built by `for participant in participants[:num_ways]:
percentages[participant["email"]] = base_percentage`. -/
def buildEqualDict (ps : List Participant) (base : ℚ) : List (String × ℚ) :=
  ps.foldl (fun m p => dictInsert m p.email base) []

/-- Python list slicing `l[:k]` for an arbitrary (possibly negative) `k`. -/
def pySlice (l : List Participant) (k : ℤ) : List Participant :=
  if 0 ≤ k then l.take k.toNat else l.take (l.length - (-k).toNat)

/-- `app.py` lines 291-313.  `num_ways == 0` (the default) means all
participants; only `num_ways > len(participants)` is rejected up front. -/
def split_equally_tool (b : Bill) (num_ways : ℤ) : Except String Bill :=
  let participants := b.participants
  let k := if num_ways = 0 then (participants.length : ℤ) else num_ways
  if (participants.length : ℤ) < k then
    Except.error ("Cannot split: more ways than participants")
  else
    let base : ℚ := 100 / (k : ℚ)
    divide_items b (buildEqualDict (pySlice participants k) base)

/-- `routes.py` lines 151-180.  The endpoint defaults whenever
`num_ways <= 0` (`request.num_ways if request.num_ways > 0 else len(...)`). -/
def split_equally_endpoint (b : Bill) (num_ways : ℤ) : Except String Bill :=
  let participants := b.participants
  let k := if 0 < num_ways then num_ways else (participants.length : ℤ)
  if (participants.length : ℤ) < k then
    Except.error ("Cannot split: more ways than participants")
  else
    let base : ℚ := 100 / (k : ℚ)
    divide_items b (buildEqualDict (pySlice participants k) base)

/-! ## Characterisation helpers (spec-side vocabulary used in the theorems) -/

/-- Emails of a participant list, in order. -/
def emailsOf (ps : List Participant) : List String :=
  ps.map (fun p => p.email)

/-- Keys of a percentage map, in order. -/
def keysOf (pcts : List (String × ℚ)) : List String :=
  pcts.map (fun pr => pr.1)

/-- Dict lookup on a percentage map (first matching key). -/
def lookupPct : List (String × ℚ) → String → Option (String × ℚ)
  | [], _ => none
  | pr :: rest, e => if pr.1 = e then some pr else lookupPct rest e

/-- Update the first participant with the given email. -/
def updateFirstP (ps : List Participant) (email : String)
    (f : Participant → Participant) : List Participant :=
  match ps with
  | [] => []
  | p :: rest =>
    if p.email = email then f p :: rest else p :: updateFirstP rest email f

/-- The shares a participant with percentage `pct` receives, one per item in
item order. -/
def sharesFor (items : List Item) (pct : ℚ) : List ItemShare :=
  items.map (fun it => mkShare it pct)

/-- Effect of processing a single item of the divide loop on one
participant. -/
def dividedP1 (it : Item) (pcts : List (String × ℚ)) (p : Participant) :
    Participant :=
  match lookupPct pcts p.email with
  | none => p
  | some pr => appendShare p (mkShare it pr.2)

/-- Cumulative effect of the divide loop on one participant. -/
def dividedP (items : List Item) (pcts : List (String × ℚ)) (p : Participant) :
    Participant :=
  match lookupPct pcts p.email with
  | none => p
  | some pr =>
    { p with
        items_paid := p.items_paid ++ sharesFor items pr.2,
        total_paid := p.total_paid + sumValues (sharesFor items pr.2) }

/-- Total of the cent adjustments handed to the participants at
enumerate-indices `k, k+1, ..., k+n-1` by the reconciliation loop. -/
def adjSum (cents_per remaining : ℤ) : ℕ → ℕ → ℤ
  | _, 0 => 0
  | k, n + 1 =>
    (cents_per + if (k : ℤ) < remaining then 1 else 0) +
      adjSum cents_per remaining (k + 1) n

/-! ## Concrete instances used by counterexamples and witnesses -/

/-- A concrete bill refuting claim C1 as stated: one item with
`nett_price = 10.00` and `quantity = 2`, `nett_amount = 21.00`,
`rounding_adj = 0`.  The reconciliation adds `error_diff = 1.00` to the
per-unit `nett_price`, so the recomputed total is `22.00`, not `21.00`. -/
def cexBill1 : Bill :=
  { items := [{ id := 1, nett_price := 10, quantity := 2 }],
    nett_amount := 21, rounding_adj := 0,
    participants := [], split_method := "item_based" }

/-- A bill with one item of quantity 2 (`nett_price = 10.00` per unit,
`nett_amount = 20.00`): the divide loop ignores quantity, so allocating 100%
of it yields a `total_paid` sum of 10, far outside the claimed
`0.01 * item_count` bound. -/
def cexBill3 : Bill :=
  { items := [{ id := 1, nett_price := 10, quantity := 2 }],
    nett_amount := 20, rounding_adj := 0,
    participants := [{ email := "a", total_paid := 0, items_paid := [] }],
    split_method := "not_set" }

/-- The bill produced by allocating 100% of `cexBill3` to `a`. -/
def cexBill3div : Bill :=
  { items := [{ id := 1, nett_price := 10, quantity := 2 }],
    nett_amount := 20, rounding_adj := 0,
    participants := [⟨"a", 10, [⟨1, 10, 100, some "percentage", some 10⟩]⟩],
    split_method := "divide_based" }

/-- Three participants over one 10.00 item, used by the C4 witness. -/
def witBill4 : Bill :=
  { items := [{ id := 1, nett_price := 10, quantity := 1 }],
    nett_amount := 10, rounding_adj := 0,
    participants := [{ email := "a", total_paid := 3, items_paid := [] },
                     { email := "b", total_paid := 7, items_paid := [] },
                     { email := "c", total_paid := 0, items_paid := [] }],
    split_method := "not_set" }

/-- One participant holding a single 10.00 share, on a bill whose
`nett_amount` is 9.99: the post-split reconciliation lowers `total_paid` to
9.99 without touching the share, breaking the C5 invariant. -/
def share5 : ItemShare := { id := 1, value := 10, percentage := 100 }

def cexBill5 : Bill :=
  { items := [{ id := 1, nett_price := 10, quantity := 1 }],
    nett_amount := 9.99, rounding_adj := 0,
    participants := [{ email := "a", total_paid := 10, items_paid := [share5] }],
    split_method := "divide_based" }

/-- Two participants who each recorded 10.00 against a 19.99 bill: the
post-split reconciliation must remove exactly one cent, used by the C2
witness. -/
def witBill2 : Bill :=
  { items := [], nett_amount := 19.99, rounding_adj := 0,
    participants := [{ email := "a", total_paid := 10, items_paid := [] },
                     { email := "b", total_paid := 10, items_paid := [] }],
    split_method := "divide_based" }

/-- Two-participant bill used to show the endpoint equal split accepts a
negative `num_ways` (treating it as the default). -/
def cexBill7 : Bill :=
  { items := [{ id := 1, nett_price := 10, quantity := 1 }],
    nett_amount := 10, rounding_adj := 0,
    participants := [{ email := "a", total_paid := 0, items_paid := [] },
                     { email := "b", total_paid := 0, items_paid := [] }],
    split_method := "not_set" }

/-- Source participant of the C8 example: holds the item-2 share worth
15.00 (75%). -/
def srcP8 : Participant :=
  { email := "a", total_paid := 15,
    items_paid := [{ id := 2, value := 15, percentage := 75 }] }

/-- Destination participant of the C8 example: already holds an item-2 share
worth 5.00 (20%). -/
def dstP8 : Participant :=
  { email := "b", total_paid := 5,
    items_paid := [{ id := 2, value := 5, percentage := 20 }] }

/-! ## Rounding and cent-value lemmas -/

theorem roundHalfEven_intCast (n : ℤ) : roundHalfEven (n : ℚ) = n := by
  simp only [roundHalfEven, Int.floor_intCast]
  norm_num

theorem abs_roundHalfEven_sub (x : ℚ) :
    |((roundHalfEven x : ℤ) : ℚ) - x| ≤ 1/2 := by
  have hle : ((⌊x⌋ : ℤ) : ℚ) ≤ x := Int.floor_le x
  have hlt : x < ((⌊x⌋ : ℤ) : ℚ) + 1 := Int.lt_floor_add_one x
  simp only [roundHalfEven]
  split
  · rw [abs_le]; constructor <;> linarith
  · split
    · push_cast
      rw [abs_le]; constructor <;> linarith
    · split <;> · push_cast; rw [abs_le]; constructor <;> linarith

theorem round2_eq_self {x : ℚ} (h : IsCents x) : round2 x = x := by
  obtain ⟨n, rfl⟩ := h
  have h100 : ((n : ℚ) / 100) * 100 = (n : ℚ) := by ring
  rw [round2, h100, roundHalfEven_intCast]

theorem abs_round2_sub (x : ℚ) : |round2 x - x| ≤ 1/200 := by
  have h := abs_roundHalfEven_sub (x * 100)
  have : round2 x - x = (((roundHalfEven (x * 100) : ℤ) : ℚ) - x * 100) / 100 := by
    rw [round2]; ring
  rw [this, abs_div]
  rw [show |(100 : ℚ)| = 100 by norm_num]
  linarith

theorem IsCents.add {x y : ℚ} (hx : IsCents x) (hy : IsCents y) :
    IsCents (x + y) := by
  obtain ⟨m, rfl⟩ := hx
  obtain ⟨n, rfl⟩ := hy
  exact ⟨m + n, by push_cast; ring⟩

theorem IsCents.neg {x : ℚ} (hx : IsCents x) : IsCents (-x) := by
  obtain ⟨m, rfl⟩ := hx
  exact ⟨-m, by push_cast; ring⟩

theorem IsCents.sub {x y : ℚ} (hx : IsCents x) (hy : IsCents y) :
    IsCents (x - y) := by
  have := hx.add hy.neg
  simpa [sub_eq_add_neg] using this

theorem IsCents.zero : IsCents 0 := ⟨0, by norm_num⟩

theorem IsCents.intCast (n : ℤ) : IsCents (n : ℚ) := ⟨100 * n, by push_cast; ring⟩

theorem IsCents.intDiv100 (n : ℤ) : IsCents ((n : ℚ) / 100) := ⟨n, rfl⟩

theorem IsCents.mul_natCast {x : ℚ} (hx : IsCents x) (q : ℕ) :
    IsCents (x * (q : ℚ)) := by
  obtain ⟨m, rfl⟩ := hx
  exact ⟨m * q, by push_cast; ring⟩

theorem IsCents.listSum {l : List ℚ} (h : ∀ x ∈ l, IsCents x) :
    IsCents l.sum := by
  induction l with
  | nil => simpa using IsCents.zero
  | cons a t ih =>
    rw [List.sum_cons]
    exact (h a (List.mem_cons_self a t)).add
      (ih (fun x hx => h x (List.mem_cons_of_mem a hx)))

/-- A whole number of cents is recovered exactly: the numerator of hundredths. -/
theorem IsCents.exists_int_mul {x : ℚ} (h : IsCents x) :
    ∃ n : ℤ, x * 100 = (n : ℚ) := by
  obtain ⟨n, rfl⟩ := h
  exact ⟨n, by ring⟩

theorem round2_eq_of_cents (x : ℚ) (n : ℤ) (h : x * 100 = (n : ℚ)) :
    round2 x = x := by
  have hx : x = (n : ℚ) / 100 := by
    field_simp at h ⊢
    linarith
  rw [round2, h, roundHalfEven_intCast, ← hx]

/-! ## Basic list-sum lemmas -/

theorem itemsNettTotal_nil : itemsNettTotal [] = 0 := rfl

theorem itemsNettTotal_cons (it : Item) (l : List Item) :
    itemsNettTotal (it :: l) = it.nett_price * (it.quantity : ℚ) + itemsNettTotal l := by
  simp [itemsNettTotal]

theorem itemsNettTotal_isCents {l : List Item}
    (h : ∀ it ∈ l, IsCents it.nett_price) : IsCents (itemsNettTotal l) := by
  induction l with
  | nil => simpa [itemsNettTotal] using IsCents.zero
  | cons a t ih =>
    rw [itemsNettTotal_cons]
    exact ((h a (List.mem_cons_self a t)).mul_natCast a.quantity).add
      (ih (fun it hit => h it (List.mem_cons_of_mem a hit)))

theorem sumValues_nil : sumValues [] = 0 := rfl

theorem sumValues_cons (s : ItemShare) (l : List ItemShare) :
    sumValues (s :: l) = s.value + sumValues l := by
  simp [sumValues]

theorem sumValues_append (l1 l2 : List ItemShare) :
    sumValues (l1 ++ l2) = sumValues l1 + sumValues l2 := by
  simp [sumValues]

/-! ## C1: receipt reconciliation exactness -/

/-- Claim C1 (amended).  For a bill with a non-empty item list and positive
`nett_amount` whose monetary fields are two-decimal values and whose FIRST
item has quantity 1, `evaluate_and_adjust_bill` makes
`Σ item.nett_price * item.quantity` equal `nett_amount` exactly.  (The
unamended claim, quantified over all bills, fails when the first item has
quantity greater than one: the correction is added to the per-unit
`nett_price` and hence counted `quantity` times — see the counterexample.) -/
theorem claim_C1_reconciliation_exact (b : Bill) (first_item : Item)
    (rest : List Item)
    (hitems : b.items = first_item :: rest)
    (hq : first_item.quantity = 1)
    (hpos : 0 < b.nett_amount)
    (hnett : IsCents b.nett_amount)
    (hra : IsCents b.rounding_adj)
    (hprices : ∀ it ∈ b.items, IsCents it.nett_price) :
    itemsNettTotal (evaluate_and_adjust_bill b).items = b.nett_amount := by
  have hprices2 : ∀ it ∈ first_item :: rest, IsCents it.nett_price := by
    rw [← hitems]; exact hprices
  have hfc : IsCents first_item.nett_price :=
    hprices2 _ (List.mem_cons_self _ _)
  have hSc : IsCents (itemsNettTotal (first_item :: rest)) :=
    itemsNettTotal_isCents hprices2
  have hedc : IsCents (b.nett_amount - (b.rounding_adj + itemsNettTotal (first_item :: rest))) :=
    hnett.sub (hra.add hSc)
  have hsplit : itemsNettTotal (first_item :: rest) =
      first_item.nett_price * (first_item.quantity : ℚ) + itemsNettTotal rest :=
    itemsNettTotal_cons _ _
  rw [hq] at hsplit
  push_cast at hsplit
  rw [mul_one] at hsplit
  simp only [evaluate_and_adjust_bill, hitems]
  split_ifs with hED hRA hRA
  · -- error_diff ≠ 0, rounding_adj ≠ 0
    rw [itemsNettTotal_cons]
    dsimp only
    rw [round2_eq_self (hfc.add hra), round2_eq_self ((hfc.add hra).add hedc), hq]
    push_cast
    linarith
  · -- error_diff ≠ 0, rounding_adj = 0
    have hra0 : b.rounding_adj = 0 := not_not.mp hRA
    rw [itemsNettTotal_cons]
    dsimp only
    rw [round2_eq_self (hfc.add hedc), hq]
    push_cast
    linarith
  · -- error_diff = 0, rounding_adj ≠ 0
    have hed0 : b.nett_amount - (b.rounding_adj + itemsNettTotal (first_item :: rest)) = 0 :=
      not_not.mp hED
    rw [itemsNettTotal_cons]
    dsimp only
    rw [round2_eq_self (hfc.add hra), hq]
    push_cast
    linarith
  · -- error_diff = 0, rounding_adj = 0
    have hed0 : b.nett_amount - (b.rounding_adj + itemsNettTotal (first_item :: rest)) = 0 :=
      not_not.mp hED
    have hra0 : b.rounding_adj = 0 := not_not.mp hRA
    rw [itemsNettTotal_cons, hq]
    push_cast
    linarith

/-- Claim C1, as stated, is false at `cexBill1`: the item list is non-empty,
`nett_amount` is positive, yet after `evaluate_and_adjust_bill` the item total
is 22 while `nett_amount` is 21. -/
theorem claim_C1_counterexample :
    cexBill1.items ≠ [] ∧ 0 < cexBill1.nett_amount ∧
    itemsNettTotal (evaluate_and_adjust_bill cexBill1).items = 22 ∧
    cexBill1.nett_amount = 21 ∧ (22 : ℚ) ≠ 21 := by
  refine ⟨by simp [cexBill1], by norm_num [cexBill1], ?_, rfl, by norm_num⟩
  simp only [cexBill1, evaluate_and_adjust_bill]
  norm_num [itemsNettTotal]
  rw [round2_eq_of_cents 11 1100 (by norm_num)]
  norm_num

/-- Witness for the amended C1 theorem at a concrete bill: two items of
quantity 1 and 2, first quantity 1, `rounding_adj = 0.05`,
`nett_amount = 20.05`. -/
theorem claim_C1_witness :
    (0 : ℚ) < 20.05 ∧
    itemsNettTotal (evaluate_and_adjust_bill
      { items := [{ id := 1, nett_price := 10, quantity := 1 },
                  { id := 2, nett_price := 5, quantity := 2 }],
        nett_amount := 20.05, rounding_adj := 0.05,
        participants := [], split_method := "item_based" }).items = 20.05 := by
  refine ⟨by norm_num, ?_⟩
  exact claim_C1_reconciliation_exact _
    { id := 1, nett_price := 10, quantity := 1 }
    [{ id := 2, nett_price := 5, quantity := 2 }]
    rfl rfl (by norm_num)
    ⟨2005, by norm_num⟩ ⟨5, by norm_num⟩
    (by
      intro it hit
      simp only [List.mem_cons, List.mem_singleton] at hit
      rcases hit with h | h | h
      · rw [h]; exact ⟨1000, by norm_num⟩
      · rw [h]; exact ⟨500, by norm_num⟩
      · cases h)

/-! ## C9: tolerance rejection -/

/-- Claim C9.  A percentage map whose values sum to more than 0.01 away from
100 makes the allocation fail with the `InvalidAllocation` error before any
participant or the split method is touched (the error branch is taken before
the clearing loop runs, so the model returns no bill at all). -/
theorem claim_C9_tolerance_rejected (b : Bill) (pcts : List (String × ℚ))
    (h : 1/100 < |(pcts.map (fun pr => pr.2)).sum - 100|) :
    divide_items b pcts = Except.error ("Error: Percentages must sum to 100%") := by
  rw [divide_items, if_pos h]

/-- Witness: a map summing to 50 is rejected on a concrete bill. -/
theorem claim_C9_witness :
    (1 : ℚ)/100 < |(([("a", (50 : ℚ))].map (fun pr => pr.2)).sum - 100)| ∧
    divide_items
      { items := [], nett_amount := 0, rounding_adj := 0,
        participants := [], split_method := "not_set" }
      [("a", (50 : ℚ))] =
      Except.error ("Error: Percentages must sum to 100%") := by
  constructor
  · simp
    norm_num
  · exact claim_C9_tolerance_rejected _ _ (by simp; norm_num)

/-! ## C10: reconciliation frame -/

theorem adjustParticipants_map_email (cents_per remaining : ℤ) (k : ℕ)
    (ps : List Participant) :
    (adjustParticipants cents_per remaining k ps).map (fun p => p.email) =
      ps.map (fun p => p.email) := by
  induction ps generalizing k with
  | nil => rfl
  | cons p rest ih =>
    simp only [adjustParticipants, List.map_cons]
    exact congrArg _ (ih (k + 1))

theorem adjustParticipants_map_items (cents_per remaining : ℤ) (k : ℕ)
    (ps : List Participant) :
    (adjustParticipants cents_per remaining k ps).map (fun p => p.items_paid) =
      ps.map (fun p => p.items_paid) := by
  induction ps generalizing k with
  | nil => rfl
  | cons p rest ih =>
    simp only [adjustParticipants, List.map_cons]
    exact congrArg _ (ih (k + 1))

/-- Claim C10.  `evaluate_chat_splitting` only ever rewrites `total_paid`
fields: the items, `nett_amount`, `rounding_adj`, `split_method`, and every
participant's email and `items_paid` list survive unchanged, in every
branch. -/
theorem claim_C10_reconciliation_frame (b : Bill) :
    (evaluate_chat_splitting b).1.items = b.items ∧
    (evaluate_chat_splitting b).1.nett_amount = b.nett_amount ∧
    (evaluate_chat_splitting b).1.rounding_adj = b.rounding_adj ∧
    (evaluate_chat_splitting b).1.split_method = b.split_method ∧
    (evaluate_chat_splitting b).1.participants.map (fun p => p.email) =
      b.participants.map (fun p => p.email) ∧
    (evaluate_chat_splitting b).1.participants.map (fun p => p.items_paid) =
      b.participants.map (fun p => p.items_paid) := by
  simp only [evaluate_chat_splitting]
  split_ifs with h1 h2 h3
  · exact ⟨rfl, rfl, rfl, rfl, rfl, rfl⟩
  · exact ⟨rfl, rfl, rfl, rfl,
      adjustParticipants_map_email _ _ 0 b.participants,
      adjustParticipants_map_items _ _ 0 b.participants⟩
  · exact ⟨rfl, rfl, rfl, rfl, rfl, rfl⟩
  · exact ⟨rfl, rfl, rfl, rfl, rfl, rfl⟩

/-! ## Percentage allocation: characterising the divide loop -/

theorem appendShare_email (p : Participant) (s : ItemShare) :
    (appendShare p s).email = p.email := rfl

theorem clearParticipant_email (p : Participant) :
    (clearParticipant p).email = p.email := rfl

theorem dividedP1_email (it : Item) (pcts : List (String × ℚ))
    (p : Participant) : (dividedP1 it pcts p).email = p.email := by
  rw [dividedP1]
  cases lookupPct pcts p.email <;> rfl

theorem sharesFor_cons (it : Item) (its : List Item) (pct : ℚ) :
    sharesFor (it :: its) pct = mkShare it pct :: sharesFor its pct := rfl

theorem lookupPct_eq_none {pcts : List (String × ℚ)} {e : String}
    (h : e ∉ keysOf pcts) : lookupPct pcts e = none := by
  induction pcts with
  | nil => rfl
  | cons pr rest ih =>
    simp only [keysOf, List.map_cons, List.mem_cons, not_or] at h
    rw [lookupPct, if_neg (fun hh => h.1 hh.symm)]
    exact ih (by simpa [keysOf] using h.2)

theorem applyShare_eq_of_mem (ps : List Participant) (email : String)
    (s : ItemShare) (h : email ∈ emailsOf ps) :
    applyShare ps email s =
      some (updateFirstP ps email (fun p => appendShare p s)) := by
  induction ps with
  | nil => simp [emailsOf] at h
  | cons p rest ih =>
    by_cases hp : p.email = email
    · simp [applyShare, updateFirstP, hp]
    · have hmem : email ∈ emailsOf rest := by
        simp only [emailsOf, List.map_cons, List.mem_cons] at h
        rcases h with h | h
        · exact absurd h.symm hp
        · simpa [emailsOf] using h
      simp [applyShare, updateFirstP, hp, ih hmem]

theorem updateFirstP_emails (ps : List Participant) (email : String)
    (f : Participant → Participant) (hf : ∀ p, (f p).email = p.email) :
    emailsOf (updateFirstP ps email f) = emailsOf ps := by
  induction ps with
  | nil => rfl
  | cons p rest ih =>
    by_cases hp : p.email = email
    · simp [updateFirstP, hp, emailsOf, hf]
    · simp only [updateFirstP, if_neg hp, emailsOf, List.map_cons] at ih ⊢
      rw [ih]

/-- Processing the single map entry `pr` (an update of the first participant
carrying its email) then the remaining entries is the same as processing
`pr :: rest` pointwise, provided emails are unique and `pr`'s key is not
repeated. -/
theorem updateFirstP_map_dividedP1 (it : Item) (pr : String × ℚ)
    (rest : List (String × ℚ)) (hk : pr.1 ∉ keysOf rest) :
    ∀ ps : List Participant, (emailsOf ps).Nodup → pr.1 ∈ emailsOf ps →
      (updateFirstP ps pr.1 (fun p => appendShare p (mkShare it pr.2))).map
          (dividedP1 it rest) =
        ps.map (dividedP1 it (pr :: rest)) := by
  intro ps
  induction ps with
  | nil => intro _ h; simp [emailsOf] at h
  | cons p tail ih =>
    intro hnd hmem
    have hnd2 : (emailsOf tail).Nodup ∧ p.email ∉ emailsOf tail := by
      simp only [emailsOf, List.map_cons, List.nodup_cons] at hnd
      exact ⟨hnd.2, hnd.1⟩
    by_cases hp : p.email = pr.1
    · simp only [updateFirstP, if_pos hp, List.map_cons]
      have hlook : lookupPct rest pr.1 = none := lookupPct_eq_none hk
      congr 1
      · show dividedP1 it rest (appendShare p (mkShare it pr.2)) =
            dividedP1 it (pr :: rest) p
        rw [dividedP1, dividedP1, appendShare_email, hp, hlook, lookupPct,
          if_pos rfl]
      · apply List.map_congr_left
        intro q hq
        have hq_ne : q.email ≠ pr.1 := by
          intro hqe
          apply hnd2.2
          rw [hp, ← hqe]
          exact List.mem_map_of_mem _ hq
        rw [dividedP1, dividedP1, lookupPct, if_neg (fun hh => hq_ne hh.symm)]
    · simp only [updateFirstP, if_neg hp, List.map_cons]
      have hmem2 : pr.1 ∈ emailsOf tail := by
        simp only [emailsOf, List.map_cons, List.mem_cons] at hmem
        rcases hmem with h | h
        · exact absurd h.symm hp
        · simpa [emailsOf] using h
      congr 1
      · rw [dividedP1, dividedP1, lookupPct, if_neg (fun hh => hp hh.symm)]
      · exact ih hnd2.1 hmem2

theorem allocItem_eq (it : Item) :
    ∀ (pcts : List (String × ℚ)) (ps : List Participant),
      (emailsOf ps).Nodup → (keysOf pcts).Nodup →
      (∀ pr ∈ pcts, pr.1 ∈ emailsOf ps) →
      allocItem ps it pcts = some (ps.map (dividedP1 it pcts)) := by
  intro pcts
  induction pcts with
  | nil =>
    intro ps _ _ _
    have hmap : List.map (dividedP1 it []) ps = ps := by
      have h1 : List.map (dividedP1 it []) ps = List.map id ps :=
        List.map_congr_left (fun p _ => by rw [dividedP1]; rfl)
      rw [h1, List.map_id]
    rw [allocItem, hmap]
  | cons pr rest ih =>
    intro ps hnd hk hmem
    have hmem1 : pr.1 ∈ emailsOf ps := hmem pr (List.mem_cons_self _ _)
    have hkctail : (keysOf rest).Nodup ∧ pr.1 ∉ keysOf rest := by
      simp only [keysOf, List.map_cons, List.nodup_cons] at hk
      exact ⟨hk.2, hk.1⟩
    rw [allocItem, applyShare_eq_of_mem ps pr.1 (mkShare it pr.2) hmem1]
    show allocItem
        (updateFirstP ps pr.1 fun p => appendShare p (mkShare it pr.2)) it rest = _
    have hemails : emailsOf
        (updateFirstP ps pr.1 fun p => appendShare p (mkShare it pr.2)) =
        emailsOf ps :=
      updateFirstP_emails ps pr.1 _ (fun p => rfl)
    rw [ih _ (by rw [hemails]; exact hnd) hkctail.1
      (fun q hq => by rw [hemails]; exact hmem q (List.mem_cons_of_mem pr hq))]
    rw [updateFirstP_map_dividedP1 it pr rest hkctail.2 ps hnd hmem1]

theorem dividedP_nil (pcts : List (String × ℚ)) (p : Participant) :
    dividedP [] pcts p = p := by
  rw [dividedP]
  cases h : lookupPct pcts p.email <;> simp [sharesFor, sumValues]

theorem dividedP1_dividedP (it : Item) (its : List Item)
    (pcts : List (String × ℚ)) (p : Participant) :
    dividedP its pcts (dividedP1 it pcts p) = dividedP (it :: its) pcts p := by
  cases h : lookupPct pcts p.email with
  | none => rw [dividedP1, h, dividedP, dividedP, h]
  | some pr =>
    rw [dividedP1, h, dividedP, dividedP, appendShare_email, h]
    simp only [appendShare, sharesFor_cons, sumValues_cons]
    simp [List.append_assoc, add_assoc]

theorem map_dividedP1_emails (it : Item) (pcts : List (String × ℚ))
    (ps : List Participant) :
    emailsOf (ps.map (dividedP1 it pcts)) = emailsOf ps := by
  simp only [emailsOf, List.map_map]
  apply List.map_congr_left
  intro p _
  exact dividedP1_email it pcts p

theorem allocAll_eq (pcts : List (String × ℚ)) :
    ∀ (items : List Item) (ps : List Participant),
      (emailsOf ps).Nodup → (keysOf pcts).Nodup →
      (∀ pr ∈ pcts, pr.1 ∈ emailsOf ps) →
      allocAll ps items pcts = some (ps.map (dividedP items pcts)) := by
  intro items
  induction items with
  | nil =>
    intro ps _ _ _
    have hmap : List.map (dividedP [] pcts) ps = ps := by
      have h1 : List.map (dividedP [] pcts) ps = List.map id ps :=
        List.map_congr_left (fun p _ => dividedP_nil pcts p)
      rw [h1, List.map_id]
    rw [allocAll, hmap]
  | cons it its ih =>
    intro ps hnd hk hmem
    rw [allocAll, allocItem_eq it pcts ps hnd hk hmem]
    show allocAll (ps.map (dividedP1 it pcts)) its pcts = _
    rw [ih _ (by rw [map_dividedP1_emails]; exact hnd) hk
      (fun q hq => by rw [map_dividedP1_emails]; exact hmem q hq)]
    rw [List.map_map]
    exact congrArg _ (List.map_congr_left fun p _ => dividedP1_dividedP it its pcts p)

/-! ## C4: divide_items full-replace semantics -/

/-- Characterisation of a successful `divide_items` call (helper shared by
several theorems below). -/
theorem divide_items_ok_eq (b : Bill) (pcts : List (String × ℚ))
    (hsum : |(pcts.map (fun pr => pr.2)).sum - 100| ≤ 1/100)
    (hnd : (emailsOf b.participants).Nodup)
    (hk : (keysOf pcts).Nodup)
    (hmem : ∀ pr ∈ pcts, pr.1 ∈ emailsOf b.participants) :
    divide_items b pcts = Except.ok
      { b with
          participants := b.participants.map (fun p =>
            match lookupPct pcts p.email with
            | none => { p with items_paid := [], total_paid := 0 }
            | some pr =>
              { p with
                  items_paid := sharesFor b.items pr.2,
                  total_paid := sumValues (sharesFor b.items pr.2) }),
          split_method := "divide_based" } := by
  rw [divide_items, if_neg (not_lt.mpr hsum)]
  have hclear_emails : emailsOf (b.participants.map clearParticipant) =
      emailsOf b.participants := by
    simp only [emailsOf, List.map_map]
    exact List.map_congr_left fun p _ => rfl
  rw [allocAll_eq pcts b.items (b.participants.map clearParticipant)
    (by rw [hclear_emails]; exact hnd) hk
    (fun q hq => by rw [hclear_emails]; exact hmem q hq)]
  have hP : List.map (dividedP b.items pcts ∘ clearParticipant) b.participants =
      List.map (fun p =>
        match lookupPct pcts p.email with
        | none => { p with items_paid := [], total_paid := 0 }
        | some pr =>
          { p with
              items_paid := sharesFor b.items pr.2,
              total_paid := sumValues (sharesFor b.items pr.2) }) b.participants := by
    apply List.map_congr_left
    intro p _
    show dividedP b.items pcts (clearParticipant p) = _
    rw [dividedP, clearParticipant_email]
    cases h : lookupPct pcts p.email with
    | none => rfl
    | some pr => simp [clearParticipant]
  rw [List.map_map, hP]

/-- Claim C4.  On a valid percentage map (summing to 100 within 0.01, keys
distinct and all present among the bill's distinct participant emails),
`divide_items` performs a full replace: every participant's shares are
recomputed from scratch — participants absent from the map end cleared
(`items_paid = []`, `total_paid = 0`), a mapped participant receives exactly
one share per item, in item order, with
`value = round(item.nett_price * percentage / 100, 2)` (`mkShare`), its
`total_paid` is the accumulated sum of those values, and `split_method`
becomes `"divide_based"`. -/
theorem claim_C4_divide_full_replace (b : Bill) (pcts : List (String × ℚ))
    (hsum : |(pcts.map (fun pr => pr.2)).sum - 100| ≤ 1/100)
    (hnd : (emailsOf b.participants).Nodup)
    (hk : (keysOf pcts).Nodup)
    (hmem : ∀ pr ∈ pcts, pr.1 ∈ emailsOf b.participants) :
    divide_items b pcts = Except.ok
      { b with
          participants := b.participants.map (fun p =>
            match lookupPct pcts p.email with
            | none => { p with items_paid := [], total_paid := 0 }
            | some pr =>
              { p with
                  items_paid := sharesFor b.items pr.2,
                  total_paid := sumValues (sharesFor b.items pr.2) }),
          split_method := "divide_based" } :=
  divide_items_ok_eq b pcts hsum hnd hk hmem

/-- Witness for C4 on `witBill4` with the map `a:60%, b:40%`: `a` and `b`
each get one share of the single item (6.00 and 4.00), while `c`, absent from
the map, is cleared. -/
theorem claim_C4_witness :
    |(([("a", (60 : ℚ)), ("b", (40 : ℚ))].map (fun pr => pr.2)).sum - 100)| ≤ 1/100 ∧
    divide_items witBill4 [("a", 60), ("b", 40)] = Except.ok
      { witBill4 with
          participants :=
            [{ email := "a", total_paid := 6,
               items_paid := [⟨1, 6, 60, some "percentage", some 10⟩] },
             { email := "b", total_paid := 4,
               items_paid := [⟨1, 4, 40, some "percentage", some 10⟩] },
             { email := "c", total_paid := 0, items_paid := [] }],
          split_method := "divide_based" } := by
  have h60 : round2 ((10 : ℚ) * (60 / 100)) = 6 := by
    rw [show (10 : ℚ) * (60 / 100) = 6 by norm_num]
    exact round2_eq_of_cents 6 600 (by norm_num)
  have h40 : round2 ((10 : ℚ) * (40 / 100)) = 4 := by
    rw [show (10 : ℚ) * (40 / 100) = 4 by norm_num]
    exact round2_eq_of_cents 4 400 (by norm_num)
  constructor
  · simp
    norm_num
  · rw [claim_C4_divide_full_replace witBill4 [("a", 60), ("b", 40)]
      (by simp; norm_num)
      (by simp [witBill4, emailsOf])
      (by simp [keysOf])
      (by
        intro pr hpr
        simp only [List.mem_cons, List.not_mem_nil, or_false] at hpr
        rcases hpr with rfl | rfl <;> simp [witBill4, emailsOf])]
    simp [witBill4, lookupPct, sharesFor, mkShare, sumValues, h60, h40]

/-! ## C3: rounding drift of the percentage allocation -/

theorem sum_abs_le {α : Type} (l : List α) (f g : α → ℚ) (c : ℚ)
    (h : ∀ a ∈ l, |f a - g a| ≤ c) :
    |(l.map f).sum - (l.map g).sum| ≤ (l.length : ℚ) * c := by
  induction l with
  | nil => simp
  | cons a t ih =>
    simp only [List.map_cons, List.sum_cons, List.length_cons]
    have h1 := h a (List.mem_cons_self a t)
    have h2 := ih (fun x hx => h x (List.mem_cons_of_mem a hx))
    have hsplit : f a + (t.map f).sum - (g a + (t.map g).sum) =
        (f a - g a) + ((t.map f).sum - (t.map g).sum) := by ring
    rw [hsplit]
    calc |(f a - g a) + ((t.map f).sum - (t.map g).sum)| ≤
        |f a - g a| + |(t.map f).sum - (t.map g).sum| := abs_add _ _
      _ ≤ c + (t.length : ℚ) * c := add_le_add h1 h2
      _ = ((t.length : ℚ) + 1) * c := by ring
      _ = ((t.length + 1 : ℕ) : ℚ) * c := by push_cast; ring

theorem sumValues_sharesFor (items : List Item) (pct : ℚ) :
    sumValues (sharesFor items pct) =
      (items.map (fun it => round2 (it.nett_price * (pct / 100)))).sum := by
  rw [sumValues, sharesFor, List.map_map]
  rfl

/-- One map entry at a time: pulling the head entry of the percentage map out
of the per-participant lookup sum. -/
theorem sum_lookup_step (g : String × ℚ → ℚ) (pr : String × ℚ)
    (rest : List (String × ℚ)) (hk : pr.1 ∉ keysOf rest) :
    ∀ ps : List Participant, (emailsOf ps).Nodup → pr.1 ∈ emailsOf ps →
      (ps.map (fun p => match lookupPct (pr :: rest) p.email with
        | none => (0 : ℚ) | some q => g q)).sum =
      g pr + (ps.map (fun p => match lookupPct rest p.email with
        | none => (0 : ℚ) | some q => g q)).sum := by
  intro ps
  induction ps with
  | nil => intro _ h; simp [emailsOf] at h
  | cons p tail ih =>
    intro hnd hmem
    have hnd2 : (emailsOf tail).Nodup ∧ p.email ∉ emailsOf tail := by
      simp only [emailsOf, List.map_cons, List.nodup_cons] at hnd
      exact ⟨hnd.2, hnd.1⟩
    simp only [List.map_cons, List.sum_cons]
    by_cases hp : p.email = pr.1
    · have hhead : (match lookupPct (pr :: rest) p.email with
          | none => (0 : ℚ) | some q => g q) = g pr := by
        rw [lookupPct, if_pos hp.symm]
      have hhead2 : (match lookupPct rest p.email with
          | none => (0 : ℚ) | some q => g q) = 0 := by
        rw [hp, lookupPct_eq_none hk]
      have htail : (tail.map (fun p => match lookupPct (pr :: rest) p.email with
          | none => (0 : ℚ) | some q => g q)) =
          (tail.map (fun p => match lookupPct rest p.email with
          | none => (0 : ℚ) | some q => g q)) := by
        apply List.map_congr_left
        intro q hq
        have hq_ne : q.email ≠ pr.1 := by
          intro hqe
          exact hnd2.2 (by rw [hp, ← hqe]; exact List.mem_map_of_mem _ hq)
        rw [lookupPct, if_neg (fun hh => hq_ne hh.symm)]
      rw [hhead, hhead2, htail]
      ring
    · have hhead : (match lookupPct (pr :: rest) p.email with
          | none => (0 : ℚ) | some q => g q) =
          (match lookupPct rest p.email with
          | none => (0 : ℚ) | some q => g q) := by
        rw [lookupPct, if_neg (fun hh => hp hh.symm)]
      have hmem2 : pr.1 ∈ emailsOf tail := by
        simp only [emailsOf, List.map_cons, List.mem_cons] at hmem
        rcases hmem with h | h
        · exact absurd h.symm hp
        · simpa [emailsOf] using h
      rw [hhead, ih hnd2.1 hmem2]
      ring

/-- Each map entry is claimed by exactly one participant: the per-participant
lookup sum collapses to a sum over the map. -/
theorem sum_lookup_collapse (g : String × ℚ → ℚ) :
    ∀ (pcts : List (String × ℚ)) (ps : List Participant),
      (emailsOf ps).Nodup → (keysOf pcts).Nodup →
      (∀ pr ∈ pcts, pr.1 ∈ emailsOf ps) →
      (ps.map (fun p => match lookupPct pcts p.email with
        | none => (0 : ℚ) | some pr => g pr)).sum = (pcts.map g).sum := by
  intro pcts
  induction pcts with
  | nil =>
    intro ps _ _ _
    simp [lookupPct]
  | cons pr rest ih =>
    intro ps hnd hk hmem
    have hkey : (keysOf rest).Nodup ∧ pr.1 ∉ keysOf rest := by
      simp only [keysOf, List.map_cons, List.nodup_cons] at hk
      exact ⟨hk.2, hk.1⟩
    rw [sum_lookup_step g pr rest hkey.2 ps hnd (hmem pr (List.mem_cons_self _ _)),
      List.map_cons, List.sum_cons,
      ih ps hnd hkey.1 (fun q hq => hmem q (List.mem_cons_of_mem pr hq))]

/-- Claim C3 (amended).  After a successful `divide_items`, the sum of all
`total_paid` differs from `(Σ percentages)/100` times the sum of the items'
PER-UNIT `nett_price` by at most `0.005 × item_count × map_size`.  (The
unamended claim — within `0.01 × item_count` of `nett_amount` — is false: the
loop ignores `quantity`, so the allocated total tracks the per-unit price sum
and can sit arbitrarily far from `nett_amount`; see the counterexample.) -/
theorem claim_C3_divide_rounding_bound (b : Bill) (pcts : List (String × ℚ))
    (b2 : Bill)
    (hnd : (emailsOf b.participants).Nodup)
    (hk : (keysOf pcts).Nodup)
    (hmem : ∀ pr ∈ pcts, pr.1 ∈ emailsOf b.participants)
    (hok : divide_items b pcts = Except.ok b2) :
    |(b2.participants.map (fun p => p.total_paid)).sum -
        ((pcts.map (fun pr => pr.2)).sum / 100) *
          (b.items.map (fun it => it.nett_price)).sum| ≤
      (pcts.length : ℚ) * (b.items.length : ℚ) * (1/200) := by
  by_cases hsum : 1/100 < |(pcts.map (fun pr => pr.2)).sum - 100|
  · rw [divide_items, if_pos hsum] at hok
    exact absurd hok (by simp)
  · rw [divide_items_ok_eq b pcts (not_lt.mp hsum) hnd hk hmem] at hok
    have hb2 := (Except.ok.injEq _ _).mp hok.symm
    subst hb2
    have hmap : ((b.participants.map (fun p =>
        match lookupPct pcts p.email with
        | none => { p with items_paid := [], total_paid := 0 }
        | some pr =>
          { p with
              items_paid := sharesFor b.items pr.2,
              total_paid := sumValues (sharesFor b.items pr.2) })).map
          (fun p => p.total_paid)) =
        b.participants.map (fun p => match lookupPct pcts p.email with
          | none => (0 : ℚ) | some pr => sumValues (sharesFor b.items pr.2)) := by
      rw [List.map_map]
      apply List.map_congr_left
      intro p _
      cases h : lookupPct pcts p.email <;> simp [h]
    dsimp only
    rw [hmap, sum_lookup_collapse
      (fun pr => sumValues (sharesFor b.items pr.2)) pcts b.participants hnd hk hmem]
    have hperentry : ∀ pr ∈ pcts,
        |sumValues (sharesFor b.items pr.2) -
          (pr.2 / 100) * (b.items.map (fun it => it.nett_price)).sum| ≤
        (b.items.length : ℚ) * (1/200) := by
      intro pr _
      rw [sumValues_sharesFor]
      have hinner : ∀ it ∈ b.items,
          |round2 (it.nett_price * (pr.2 / 100)) - it.nett_price * (pr.2 / 100)| ≤
            1/200 :=
        fun it _ => abs_round2_sub _
      have hbound := sum_abs_le b.items
        (fun it => round2 (it.nett_price * (pr.2 / 100)))
        (fun it => it.nett_price * (pr.2 / 100)) (1/200) hinner
      have hfact : (b.items.map (fun it => it.nett_price * (pr.2 / 100))).sum =
          (pr.2 / 100) * (b.items.map (fun it => it.nett_price)).sum := by
        rw [List.sum_map_mul_right]
        ring
      rw [hfact] at hbound
      exact hbound
    have houter := sum_abs_le pcts
      (fun pr => sumValues (sharesFor b.items pr.2))
      (fun pr => (pr.2 / 100) * (b.items.map (fun it => it.nett_price)).sum)
      ((b.items.length : ℚ) * (1/200)) hperentry
    have hfact2 : (pcts.map
        (fun pr => (pr.2 / 100) * (b.items.map (fun it => it.nett_price)).sum)).sum =
        ((pcts.map (fun pr => pr.2)).sum / 100) *
          (b.items.map (fun it => it.nett_price)).sum := by
      have hcongr : (pcts.map
          (fun pr => (pr.2 / 100) * (b.items.map (fun it => it.nett_price)).sum)) =
          (pcts.map
          (fun pr => pr.2 * ((b.items.map (fun it => it.nett_price)).sum / 100))) := by
        apply List.map_congr_left
        intro pr _
        ring
      rw [hcongr, List.sum_map_mul_right]
      ring
    rw [hfact2] at houter
    calc |_ - _| ≤ (pcts.length : ℚ) * ((b.items.length : ℚ) * (1/200)) := houter
      _ = (pcts.length : ℚ) * (b.items.length : ℚ) * (1/200) := by ring

/-- Evaluating the divide on `cexBill3` (helper for the C3 counterexample and
witness). -/
theorem cex3_divide_eq :
    divide_items cexBill3 [("a", (100 : ℚ))] = Except.ok cexBill3div := by
  have h100 : round2 (10 : ℚ) = 10 := round2_eq_of_cents 10 1000 (by norm_num)
  rw [divide_items_ok_eq cexBill3 [("a", 100)] (by simp)
      (by simp [cexBill3, emailsOf]) (by simp [keysOf])
      (by
        intro pr hpr
        simp only [List.mem_cons, List.not_mem_nil, or_false] at hpr
        subst hpr
        simp [cexBill3, emailsOf])]
  simp [cexBill3, cexBill3div, lookupPct, sharesFor, mkShare, sumValues, h100]

/-- Claim C3, as stated, is false at `cexBill3` with the map `a:100%`: the
percentages sum to exactly 100 and `a` is a participant, yet the allocated
`total_paid` sum is 10 while `nett_amount` is 20 — a gap of 10, far beyond
`0.01 × item_count = 0.01` (the loop multiplies by `nett_price` but never by
`quantity`). -/
theorem claim_C3_counterexample :
    |(([("a", (100 : ℚ))].map (fun pr => pr.2)).sum - 100)| ≤ 1/100 ∧
    divide_items cexBill3 [("a", (100 : ℚ))] = Except.ok cexBill3div ∧
    (cexBill3div.participants.map (fun p => p.total_paid)).sum = 10 ∧
    ¬ (|(10 : ℚ) - cexBill3.nett_amount| ≤
        (1/100) * (cexBill3.items.length : ℚ)) := by
  refine ⟨by simp, cex3_divide_eq, by simp [cexBill3div], ?_⟩
  simp [cexBill3]
  norm_num

/-- Witness for the amended C3 bound at `cexBill3` with the map `a:100%`. -/
theorem claim_C3_witness :
    divide_items cexBill3 [("a", (100 : ℚ))] = Except.ok cexBill3div ∧
    |(cexBill3div.participants.map (fun p => p.total_paid)).sum -
        (([("a", (100 : ℚ))].map (fun pr => pr.2)).sum / 100) *
          (cexBill3.items.map (fun it => it.nett_price)).sum| ≤
      (([("a", (100 : ℚ))].length : ℚ)) * ((cexBill3.items.length : ℚ)) * (1/200) :=
  ⟨cex3_divide_eq,
    claim_C3_divide_rounding_bound cexBill3 [("a", (100 : ℚ))] cexBill3div
      (by simp [cexBill3, emailsOf]) (by simp [keysOf])
      (by
        intro pr hpr
        simp only [List.mem_cons, List.not_mem_nil, or_false] at hpr
        subst hpr
        simp [cexBill3, emailsOf])
      cex3_divide_eq⟩

/-! ## Share-list lemmas for the item transfer engine -/

theorem findId_id {l : List ItemShare} {k : ℕ} {itm : ItemShare}
    (h : findId l k = some itm) : itm.id = k := by
  induction l with
  | nil => simp [findId] at h
  | cons s rest ih =>
    rw [findId] at h
    by_cases hs : s.id = k
    · rw [if_pos hs] at h
      obtain rfl : s = itm := by simpa using h
      exact hs
    · rw [if_neg hs] at h
      exact ih h

theorem selectId_not_mem {l : List ItemShare} {k : ℕ}
    (h : k ∉ l.map (fun sh => sh.id)) : selectId l k = [] := by
  induction l with
  | nil => rfl
  | cons s rest ih =>
    simp only [List.map_cons, List.mem_cons, not_or] at h
    rw [selectId, if_neg (fun hh => h.1 hh.symm)]
    exact ih h.2

theorem selectId_append (l1 l2 : List ItemShare) (k : ℕ) :
    selectId (l1 ++ l2) k = selectId l1 k ++ selectId l2 k := by
  induction l1 with
  | nil => rfl
  | cons s rest ih =>
    rw [List.cons_append]
    by_cases hs : s.id = k
    · rw [selectId, if_pos hs, selectId, if_pos hs, ih, List.cons_append]
    · rw [selectId, if_neg hs, selectId, if_neg hs, ih]

theorem selectId_removeId_self (l : List ItemShare) (k : ℕ) :
    selectId (removeId l k) k = [] := by
  induction l with
  | nil => rfl
  | cons s rest ih =>
    by_cases hs : s.id = k
    · rw [removeId, if_pos hs, ih]
    · rw [removeId, if_neg hs, selectId, if_neg hs, ih]

theorem selectId_removeId_ne (l : List ItemShare) {j k : ℕ} (h : j ≠ k) :
    selectId (removeId l k) j = selectId l j := by
  induction l with
  | nil => rfl
  | cons s rest ih =>
    by_cases hs : s.id = k
    · rw [removeId, if_pos hs, selectId, if_neg (by rw [hs]; exact fun hh => h hh.symm), ih]
    · by_cases hj : s.id = j
      · rw [removeId, if_neg hs, selectId, if_pos hj, selectId, if_pos hj, ih]
      · rw [removeId, if_neg hs, selectId, if_neg hj, selectId, if_neg hj, ih]

theorem sumValues_split (l : List ItemShare) (k : ℕ) :
    sumValues (removeId l k) + sumValues (selectId l k) = sumValues l := by
  induction l with
  | nil => simp [removeId, selectId, sumValues]
  | cons s rest ih =>
    by_cases hs : s.id = k
    · rw [removeId, if_pos hs, selectId, if_pos hs, sumValues_cons, sumValues_cons]
      linarith
    · rw [removeId, if_neg hs, selectId, if_neg hs, sumValues_cons, sumValues_cons]
      linarith

theorem sumValues_selectId_some {l : List ItemShare} {k : ℕ} {itm : ItemShare}
    (hnd : (l.map (fun sh => sh.id)).Nodup) (h : findId l k = some itm) :
    sumValues (selectId l k) = itm.value := by
  induction l with
  | nil => simp [findId] at h
  | cons s rest ih =>
    simp only [List.map_cons, List.nodup_cons] at hnd
    rw [findId] at h
    by_cases hs : s.id = k
    · rw [if_pos hs] at h
      obtain rfl : s = itm := by simpa using h
      rw [selectId, if_pos hs,
        selectId_not_mem (by rw [← hs]; exact hnd.1), sumValues_cons, sumValues_nil]
      ring
    · rw [if_neg hs] at h
      rw [selectId, if_neg hs]
      exact ih hnd.2 h

theorem sumValues_removeId {l : List ItemShare} {k : ℕ} {itm : ItemShare}
    (hnd : (l.map (fun sh => sh.id)).Nodup) (h : findId l k = some itm) :
    sumValues (removeId l k) = sumValues l - itm.value := by
  have := sumValues_split l k
  rw [sumValues_selectId_some hnd h] at this
  linarith

theorem mem_removeId_ids {l : List ItemShare} {k j : ℕ}
    (h : j ∈ (removeId l k).map (fun sh => sh.id)) :
    j ∈ l.map (fun sh => sh.id) := by
  induction l with
  | nil => simpa [removeId] using h
  | cons s rest ih =>
    by_cases hs : s.id = k
    · rw [removeId, if_pos hs] at h
      exact List.mem_cons_of_mem _ (ih h)
    · rw [removeId, if_neg hs, List.map_cons] at h
      rcases List.mem_cons.mp h with h1 | h1
      · exact List.mem_cons.mpr (Or.inl h1)
      · exact List.mem_cons_of_mem _ (ih h1)

theorem nodup_removeId {l : List ItemShare} {k : ℕ}
    (hnd : (l.map (fun sh => sh.id)).Nodup) :
    ((removeId l k).map (fun sh => sh.id)).Nodup := by
  induction l with
  | nil => simpa [removeId] using hnd
  | cons s rest ih =>
    simp only [List.map_cons, List.nodup_cons] at hnd
    by_cases hs : s.id = k
    · rw [removeId, if_pos hs]
      exact ih hnd.2
    · rw [removeId, if_neg hs, List.map_cons]
      exact List.nodup_cons.mpr ⟨fun hmem => hnd.1 (mem_removeId_ids hmem), ih hnd.2⟩

theorem mergeFirst_select_ne (l : List ItemShare) {j k : ℕ} (itm : ItemShare)
    (h : j ≠ k) :
    selectId (mergeFirst l k itm) j = selectId l j := by
  induction l with
  | nil => rfl
  | cons s rest ih =>
    by_cases hs : s.id = k
    · rw [mergeFirst, if_pos hs, selectId, selectId]
      have hns : ¬ s.id = j := by rw [hs]; exact fun hh => h hh.symm
      rw [if_neg hns, if_neg hns]
    · by_cases hj : s.id = j
      · rw [mergeFirst, if_neg hs, selectId, if_pos hj, selectId, if_pos hj, ih]
      · rw [mergeFirst, if_neg hs, selectId, if_neg hj, selectId, if_neg hj, ih]

theorem mergeFirst_select_self {l : List ItemShare} {k : ℕ} {ex : ItemShare}
    (itm : ItemShare) (h : findId l k = some ex) :
    sumValues (selectId (mergeFirst l k itm) k) =
      sumValues (selectId l k) + itm.value := by
  induction l with
  | nil => simp [findId] at h
  | cons s rest ih =>
    rw [findId] at h
    by_cases hs : s.id = k
    · rw [mergeFirst, if_pos hs, selectId, if_pos hs, selectId, if_pos hs,
        sumValues_cons, sumValues_cons]
      ring
    · rw [if_neg hs] at h
      rw [mergeFirst, if_neg hs, selectId, if_neg hs, selectId, if_neg hs, ih h]

theorem sumValues_mergeFirst {l : List ItemShare} {k : ℕ} {ex : ItemShare}
    (itm : ItemShare) (h : findId l k = some ex) :
    sumValues (mergeFirst l k itm) = sumValues l + itm.value := by
  induction l with
  | nil => simp [findId] at h
  | cons s rest ih =>
    rw [findId] at h
    by_cases hs : s.id = k
    · rw [mergeFirst, if_pos hs, sumValues_cons, sumValues_cons]
      ring
    · rw [if_neg hs] at h
      rw [mergeFirst, if_neg hs, sumValues_cons, sumValues_cons, ih h]
      ring

/-! ## Loop specifications for the two move paths -/

theorem move_loop_tool_spec :
    ∀ (ids : List ℕ) (src dst : Participant) (moved : ℚ)
      (s d : Participant) (tot : ℚ),
      (src.items_paid.map (fun sh => sh.id)).Nodup →
      move_loop_tool src dst ids moved = some (s, d, tot) →
      s.total_paid = src.total_paid ∧ d.total_paid = dst.total_paid ∧
      sumValues s.items_paid = sumValues src.items_paid - (tot - moved) ∧
      sumValues d.items_paid = sumValues dst.items_paid + (tot - moved) ∧
      ∀ j : ℕ,
        sumValues (selectId s.items_paid j) + sumValues (selectId d.items_paid j) =
        sumValues (selectId src.items_paid j) + sumValues (selectId dst.items_paid j) := by
  intro ids
  induction ids with
  | nil =>
    intro src dst moved s d tot hnd h
    rw [move_loop_tool] at h
    obtain ⟨rfl, rfl, rfl⟩ : src = s ∧ dst = d ∧ moved = tot := by
      simpa using h
    exact ⟨rfl, rfl, by ring, by ring, fun j => rfl⟩
  | cons k rest ih =>
    intro src dst moved s d tot hnd h
    simp only [move_loop_tool] at h
    cases hfind : findId src.items_paid k with
    | none => rw [hfind] at h; simp at h
    | some itm =>
      rw [hfind] at h
      have hitmid : itm.id = k := findId_id hfind
      have hnd1 : ((removeId src.items_paid k).map (fun sh => sh.id)).Nodup :=
        nodup_removeId hnd
      have hsrc_rm : sumValues (removeId src.items_paid k) =
          sumValues src.items_paid - itm.value := sumValues_removeId hnd hfind
      have hsrc_sel : sumValues (selectId src.items_paid k) = itm.value :=
        sumValues_selectId_some hnd hfind
      cases hdst : findId dst.items_paid k with
      | some ex =>
        rw [hdst] at h
        obtain ⟨ht1, ht2, hs1, hs2, hsel⟩ := ih _ _ _ _ _ _ hnd1 h
        dsimp only at ht1 ht2 hs1 hs2 hsel
        refine ⟨ht1, ht2, ?_, ?_, ?_⟩
        · rw [hs1, hsrc_rm]; ring
        · rw [hs2, sumValues_mergeFirst itm hdst]; ring
        · intro j
          rw [hsel j]
          by_cases hj : j = k
          · subst hj
            rw [selectId_removeId_self, mergeFirst_select_self itm hdst,
              sumValues_nil, hsrc_sel]
            ring
          · rw [selectId_removeId_ne _ hj, mergeFirst_select_ne _ itm hj]
      | none =>
        rw [hdst] at h
        obtain ⟨ht1, ht2, hs1, hs2, hsel⟩ := ih _ _ _ _ _ _ hnd1 h
        dsimp only at ht1 ht2 hs1 hs2 hsel
        refine ⟨ht1, ht2, ?_, ?_, ?_⟩
        · rw [hs1, hsrc_rm]; ring
        · rw [hs2, sumValues_append, sumValues_cons, sumValues_nil]; ring
        · intro j
          rw [hsel j]
          by_cases hj : j = k
          · subst hj
            rw [selectId_removeId_self, selectId_append, sumValues_nil,
              sumValues_append, hsrc_sel]
            rw [selectId, if_pos hitmid, selectId, sumValues_cons, sumValues_nil]
            ring
          · rw [selectId_removeId_ne _ hj, selectId_append]
            rw [selectId, if_neg (by rw [hitmid]; exact fun hh => hj hh.symm), selectId,
              sumValues_append, sumValues_nil]
            ring

theorem move_loop_endpoint_spec :
    ∀ (ids : List ℕ) (src dst : Participant) (moved : ℚ)
      (s d : Participant) (tot : ℚ),
      (src.items_paid.map (fun sh => sh.id)).Nodup →
      move_loop_endpoint src dst ids moved = some (s, d, tot) →
      s.total_paid = src.total_paid ∧ d.total_paid = dst.total_paid ∧
      sumValues s.items_paid = sumValues src.items_paid - (tot - moved) ∧
      sumValues d.items_paid = sumValues dst.items_paid + (tot - moved) ∧
      ∀ j : ℕ,
        sumValues (selectId s.items_paid j) + sumValues (selectId d.items_paid j) =
        sumValues (selectId src.items_paid j) + sumValues (selectId dst.items_paid j) := by
  intro ids
  induction ids with
  | nil =>
    intro src dst moved s d tot hnd h
    rw [move_loop_endpoint] at h
    obtain ⟨rfl, rfl, rfl⟩ : src = s ∧ dst = d ∧ moved = tot := by
      simpa using h
    exact ⟨rfl, rfl, by ring, by ring, fun j => rfl⟩
  | cons k rest ih =>
    intro src dst moved s d tot hnd h
    simp only [move_loop_endpoint] at h
    cases hfind : findId src.items_paid k with
    | none => rw [hfind] at h; simp at h
    | some itm =>
      rw [hfind] at h
      have hitmid : itm.id = k := findId_id hfind
      have hnd1 : ((removeId src.items_paid k).map (fun sh => sh.id)).Nodup :=
        nodup_removeId hnd
      have hsrc_rm : sumValues (removeId src.items_paid k) =
          sumValues src.items_paid - itm.value := sumValues_removeId hnd hfind
      have hsrc_sel : sumValues (selectId src.items_paid k) = itm.value :=
        sumValues_selectId_some hnd hfind
      obtain ⟨ht1, ht2, hs1, hs2, hsel⟩ := ih _ _ _ _ _ _ hnd1 h
      dsimp only at ht1 ht2 hs1 hs2 hsel
      refine ⟨ht1, ht2, ?_, ?_, ?_⟩
      · rw [hs1, hsrc_rm]; ring
      · rw [hs2, sumValues_append, sumValues_cons, sumValues_nil]; ring
      · intro j
        rw [hsel j]
        by_cases hj : j = k
        · subst hj
          rw [selectId_removeId_self, selectId_append, sumValues_nil,
            sumValues_append, hsrc_sel]
          rw [selectId, if_pos hitmid, selectId, sumValues_cons, sumValues_nil]
          ring
        · rw [selectId_removeId_ne _ hj, selectId_append]
          rw [selectId, if_neg (by rw [hitmid]; exact fun hh => hj hh.symm), selectId,
            sumValues_append, sumValues_nil]
          ring

/-! ## Per-participant total/shares invariant helpers -/

theorem sum_map_zero {α : Type} (l : List α) :
    (l.map (fun _ => (0 : ℚ))).sum = 0 := by
  induction l with
  | nil => rfl
  | cons a t ih => simp [ih]

theorem applyShare_inv {email : String} {s : ItemShare} :
    ∀ {ps ps2 : List Participant}, applyShare ps email s = some ps2 →
      (∀ p ∈ ps, p.total_paid = sumValues p.items_paid) →
      ∀ p ∈ ps2, p.total_paid = sumValues p.items_paid := by
  intro ps
  induction ps with
  | nil => intro ps2 h; simp [applyShare] at h
  | cons p rest ih =>
    intro ps2 h hinv
    rw [applyShare] at h
    by_cases hp : p.email = email
    · rw [if_pos hp] at h
      obtain rfl : appendShare p s :: rest = ps2 := by simpa using h
      intro q hq
      rcases List.mem_cons.mp hq with rfl | hq2
      · show (appendShare p s).total_paid = sumValues (appendShare p s).items_paid
        rw [appendShare]
        dsimp only
        rw [sumValues_append, sumValues_cons, sumValues_nil,
          hinv p (List.mem_cons_self _ _)]
        ring
      · exact hinv q (List.mem_cons_of_mem _ hq2)
    · rw [if_neg hp] at h
      cases hrest : applyShare rest email s with
      | none => rw [hrest] at h; simp at h
      | some ps3 =>
        rw [hrest] at h
        obtain rfl : p :: ps3 = ps2 := by simpa using h
        intro q hq
        rcases List.mem_cons.mp hq with rfl | hq2
        · exact hinv q (List.mem_cons_self _ _)
        · exact ih hrest (fun r hr => hinv r (List.mem_cons_of_mem _ hr)) q hq2

theorem allocItem_inv {it : Item} :
    ∀ (pcts : List (String × ℚ)) {ps ps2 : List Participant},
      allocItem ps it pcts = some ps2 →
      (∀ p ∈ ps, p.total_paid = sumValues p.items_paid) →
      ∀ p ∈ ps2, p.total_paid = sumValues p.items_paid := by
  intro pcts
  induction pcts with
  | nil =>
    intro ps ps2 h hinv
    rw [allocItem] at h
    obtain rfl : ps = ps2 := by simpa using h
    exact hinv
  | cons pr rest ih =>
    intro ps ps2 h hinv
    rw [allocItem] at h
    cases happ : applyShare ps pr.1 (mkShare it pr.2) with
    | none => rw [happ] at h; simp at h
    | some ps1 =>
      rw [happ] at h
      exact ih h (applyShare_inv happ hinv)

theorem allocAll_inv :
    ∀ (items : List Item) (pcts : List (String × ℚ)) {ps ps2 : List Participant},
      allocAll ps items pcts = some ps2 →
      (∀ p ∈ ps, p.total_paid = sumValues p.items_paid) →
      ∀ p ∈ ps2, p.total_paid = sumValues p.items_paid := by
  intro items
  induction items with
  | nil =>
    intro pcts ps ps2 h hinv
    rw [allocAll] at h
    obtain rfl : ps = ps2 := by simpa using h
    exact hinv
  | cons it its ih =>
    intro pcts ps ps2 h hinv
    rw [allocAll] at h
    cases hone : allocItem ps it pcts with
    | none => rw [hone] at h; simp at h
    | some ps1 =>
      rw [hone] at h
      exact ih pcts h (allocItem_inv pcts hone hinv)

/-- A successful divide leaves every participant with
`total_paid = Σ share values` (the totals are accumulated share by share from
a cleared state). -/
theorem divide_items_inv {b : Bill} {pcts : List (String × ℚ)} {b2 : Bill}
    (h : divide_items b pcts = Except.ok b2) :
    ∀ p ∈ b2.participants, p.total_paid = sumValues p.items_paid := by
  rw [divide_items] at h
  by_cases hsum : 1/100 < |(pcts.map (fun pr => pr.2)).sum - 100|
  · rw [if_pos hsum] at h
    exact absurd h (by simp)
  · rw [if_neg hsum] at h
    cases halloc : allocAll (b.participants.map clearParticipant) b.items pcts with
    | none => rw [halloc] at h; exact absurd h (by simp)
    | some ps =>
      rw [halloc] at h
      obtain rfl : { b with participants := ps, split_method := "divide_based" } = b2 := by
        simpa using h
      have hclear : ∀ p ∈ b.participants.map clearParticipant,
          p.total_paid = sumValues p.items_paid := by
        intro p hp
        obtain ⟨q, _, rfl⟩ := List.mem_map.mp hp
        rfl
      exact allocAll_inv b.items pcts halloc hclear

/-- Both equal-split paths delegate to `divide_items`, so a successful equal
split satisfies the same invariant. -/
theorem split_equally_tool_inv {b : Bill} {num_ways : ℤ} {b2 : Bill}
    (h : split_equally_tool b num_ways = Except.ok b2) :
    ∀ p ∈ b2.participants, p.total_paid = sumValues p.items_paid := by
  rw [split_equally_tool] at h
  split_ifs at h <;>
    first
      | (simp at h; done)
      | exact divide_items_inv h

theorem split_equally_endpoint_inv {b : Bill} {num_ways : ℤ} {b2 : Bill}
    (h : split_equally_endpoint b num_ways = Except.ok b2) :
    ∀ p ∈ b2.participants, p.total_paid = sumValues p.items_paid := by
  rw [split_equally_endpoint] at h
  split_ifs at h <;>
    first
      | (simp at h; done)
      | exact divide_items_inv h

/-! ## Initial assignment lemmas -/

theorem initItemShare_id (it : Item) : (initItemShare it).id = it.id := rfl

theorem sumValues_initShares (items : List Item) :
    sumValues (items.map initItemShare) =
      (items.map (fun it => it.nett_price)).sum := by
  rw [sumValues, List.map_map]
  rfl

theorem initShares_select {items : List Item}
    (hnd : (items.map (fun x => x.id)).Nodup) {it : Item} (hit : it ∈ items) :
    sumValues (selectId (items.map initItemShare) it.id) = it.nett_price := by
  induction items with
  | nil => cases hit
  | cons a rest ih =>
    simp only [List.map_cons, List.nodup_cons] at hnd
    rcases List.mem_cons.mp hit with rfl | hit2
    · rw [List.map_cons, selectId, if_pos (initItemShare_id it)]
      have hrest : selectId (rest.map initItemShare) it.id = [] := by
        apply selectId_not_mem
        rw [List.map_map]
        intro hmem
        exact hnd.1 (by simpa using hmem)
      rw [hrest, sumValues_cons, sumValues_nil]
      show it.nett_price + 0 = it.nett_price
      ring
    · have hne : a.id ≠ it.id := by
        intro he
        exact hnd.1 (he ▸ List.mem_map_of_mem (fun x => x.id) hit2)
      rw [List.map_cons, selectId, if_neg (by rw [initItemShare_id]; exact hne)]
      exact ih hnd.2 hit2

/-! ## C5: total_paid matches the shares -/

/-- Claim C5 (amended).  The invariant `total_paid = Σ value over items_paid`
holds after a percentage split, after either equal split, after the initial
assignment provided every item has quantity 1 and cent-valued prices, and is
preserved by item moves on both paths provided the source's share ids are
distinct.  (The unamended claim also asserts it after the post-split
reconciliation, which is false: `evaluate_chat_splitting` rewrites
`total_paid` only, so any nonzero correction breaks the invariant — see the
counterexample.) -/
theorem claim_C5_total_matches_shares :
    (∀ (b : Bill) (pcts : List (String × ℚ)) (b2 : Bill),
        divide_items b pcts = Except.ok b2 →
        ∀ p ∈ b2.participants, p.total_paid = sumValues p.items_paid) ∧
    (∀ (b : Bill) (num_ways : ℤ) (b2 : Bill),
        split_equally_tool b num_ways = Except.ok b2 →
        ∀ p ∈ b2.participants, p.total_paid = sumValues p.items_paid) ∧
    (∀ (b : Bill) (num_ways : ℤ) (b2 : Bill),
        split_equally_endpoint b num_ways = Except.ok b2 →
        ∀ p ∈ b2.participants, p.total_paid = sumValues p.items_paid) ∧
    (∀ (items : List Item) (emails : List String),
        (∀ it ∈ items, it.quantity = 1) →
        (∀ it ∈ items, IsCents it.nett_price) →
        ∀ p ∈ initialize_participants items emails,
          p.total_paid = sumValues p.items_paid) ∧
    (∀ (src dst s d : Participant) (ids : List ℕ),
        (src.items_paid.map (fun sh => sh.id)).Nodup →
        src.total_paid = sumValues src.items_paid →
        dst.total_paid = sumValues dst.items_paid →
        move_item_tool src dst ids = some (s, d) →
        s.total_paid = sumValues s.items_paid ∧
          d.total_paid = sumValues d.items_paid) ∧
    (∀ (src dst s d : Participant) (ids : List ℕ),
        (src.items_paid.map (fun sh => sh.id)).Nodup →
        src.total_paid = sumValues src.items_paid →
        dst.total_paid = sumValues dst.items_paid →
        move_item_endpoint src dst ids = some (s, d) →
        s.total_paid = sumValues s.items_paid ∧
          d.total_paid = sumValues d.items_paid) := by
  refine ⟨fun b pcts b2 h => divide_items_inv h,
    fun b nw b2 h => split_equally_tool_inv h,
    fun b nw b2 h => split_equally_endpoint_inv h,
    ?_, ?_, ?_⟩
  · intro items emails hq hcents p hp
    cases emails with
    | nil => cases hp
    | cons e rest =>
      rw [initialize_participants] at hp
      rcases List.mem_cons.mp hp with rfl | hp2
      · show round2 (itemsNettTotal items) = sumValues (items.map initItemShare)
        have hmapeq : items.map (fun it => it.nett_price * (it.quantity : ℚ)) =
            items.map (fun it => it.nett_price) :=
          List.map_congr_left (fun it hit => by
            rw [hq it hit]
            push_cast
            ring)
        have hqt : itemsNettTotal items =
            (items.map (fun it => it.nett_price)).sum := by
          rw [itemsNettTotal, hmapeq]
        have hc2 : IsCents ((items.map (fun it => it.nett_price)).sum) := by
          apply IsCents.listSum
          intro x hx
          obtain ⟨it, hit, rfl⟩ := List.mem_map.mp hx
          exact hcents it hit
        rw [hqt, round2_eq_self hc2, sumValues_initShares]
      · obtain ⟨e2, _, rfl⟩ := List.mem_map.mp hp2
        show (0 : ℚ) = sumValues []
        rw [sumValues_nil]
  · intro src dst s d ids hnd hinvs hinvd h
    rw [move_item_tool] at h
    cases hloop : move_loop_tool src dst ids 0 with
    | none => rw [hloop] at h; simp at h
    | some res =>
      obtain ⟨s1, d1, tot⟩ := res
      rw [hloop] at h
      obtain ⟨rfl, rfl⟩ :
          { s1 with total_paid := s1.total_paid - tot } = s ∧
          { d1 with total_paid := d1.total_paid + tot } = d := by
        simpa using h
      obtain ⟨ht1, ht2, hs1, hs2, -⟩ :=
        move_loop_tool_spec ids src dst 0 s1 d1 tot hnd hloop
      constructor
      · show s1.total_paid - tot = sumValues s1.items_paid
        rw [ht1, hinvs, hs1]
        ring
      · show d1.total_paid + tot = sumValues d1.items_paid
        rw [ht2, hinvd, hs2]
        ring
  · intro src dst s d ids hnd hinvs hinvd h
    rw [move_item_endpoint] at h
    cases hloop : move_loop_endpoint src dst ids 0 with
    | none => rw [hloop] at h; simp at h
    | some res =>
      obtain ⟨s1, d1, tot⟩ := res
      rw [hloop] at h
      obtain ⟨rfl, rfl⟩ :
          { s1 with total_paid := s1.total_paid - tot } = s ∧
          { d1 with total_paid := d1.total_paid + tot } = d := by
        simpa using h
      obtain ⟨ht1, ht2, hs1, hs2, -⟩ :=
        move_loop_endpoint_spec ids src dst 0 s1 d1 tot hnd hloop
      constructor
      · show s1.total_paid - tot = sumValues s1.items_paid
        rw [ht1, hinvs, hs1]
        ring
      · show d1.total_paid + tot = sumValues d1.items_paid
        rw [ht2, hinvd, hs2]
        ring

/-! ## C6: per-item cross-participant conservation -/

/-- Claim C6 (amended).  For a bill whose item ids are distinct, after the
initial assignment the shares carried by all participants for an item id sum
to that item's PER-UNIT `nett_price` (quantity is ignored by the code — the
claimed `nett_price * quantity` fails for quantities above 1, see the
counterexample), and both move paths preserve the per-item sums exactly,
provided the source participant holds at most one share per id (distinct
share ids). -/
theorem claim_C6_item_conservation :
    (∀ (items : List Item) (e : String) (emails : List String) (it : Item),
        (items.map (fun x => x.id)).Nodup → it ∈ items →
        itemTotal (initialize_participants items (e :: emails)) it.id =
          it.nett_price) ∧
    (∀ (src dst s d : Participant) (ids : List ℕ),
        (src.items_paid.map (fun sh => sh.id)).Nodup →
        move_item_tool src dst ids = some (s, d) →
        ∀ j : ℕ, itemTotal [s, d] j = itemTotal [src, dst] j) ∧
    (∀ (src dst s d : Participant) (ids : List ℕ),
        (src.items_paid.map (fun sh => sh.id)).Nodup →
        move_item_endpoint src dst ids = some (s, d) →
        ∀ j : ℕ, itemTotal [s, d] j = itemTotal [src, dst] j) := by
  refine ⟨?_, ?_, ?_⟩
  · intro items e emails it hnd hit
    rw [initialize_participants, itemTotal, List.map_cons, List.sum_cons]
    have hrest : ((emails.map (fun e2 =>
        ({ email := e2, total_paid := 0, items_paid := [] } : Participant))).map
          (fun p => sumValues (selectId p.items_paid it.id))).sum = 0 := by
      rw [List.map_map]
      exact sum_map_zero emails
    rw [hrest]
    show sumValues (selectId (items.map initItemShare) it.id) + 0 = it.nett_price
    rw [initShares_select hnd hit]
    ring
  · intro src dst s d ids hnd h
    rw [move_item_tool] at h
    cases hloop : move_loop_tool src dst ids 0 with
    | none => rw [hloop] at h; simp at h
    | some res =>
      obtain ⟨s1, d1, tot⟩ := res
      rw [hloop] at h
      obtain ⟨rfl, rfl⟩ :
          { s1 with total_paid := s1.total_paid - tot } = s ∧
          { d1 with total_paid := d1.total_paid + tot } = d := by
        simpa using h
      obtain ⟨-, -, -, -, hsel⟩ :=
        move_loop_tool_spec ids src dst 0 s1 d1 tot hnd hloop
      intro j
      rw [itemTotal, itemTotal]
      simp only [List.map_cons, List.map_nil, List.sum_cons, List.sum_nil]
      have := hsel j
      linarith
  · intro src dst s d ids hnd h
    rw [move_item_endpoint] at h
    cases hloop : move_loop_endpoint src dst ids 0 with
    | none => rw [hloop] at h; simp at h
    | some res =>
      obtain ⟨s1, d1, tot⟩ := res
      rw [hloop] at h
      obtain ⟨rfl, rfl⟩ :
          { s1 with total_paid := s1.total_paid - tot } = s ∧
          { d1 with total_paid := d1.total_paid + tot } = d := by
        simpa using h
      obtain ⟨-, -, -, -, hsel⟩ :=
        move_loop_endpoint_spec ids src dst 0 s1 d1 tot hnd hloop
      intro j
      rw [itemTotal, itemTotal]
      simp only [List.map_cons, List.map_nil, List.sum_cons, List.sum_nil]
      have := hsel j
      linarith

/-! ## C8: consolidation on move -/

theorem mergeFirst_select_length (l : List ItemShare) (k : ℕ) (itm : ItemShare) :
    (selectId (mergeFirst l k itm) k).length = (selectId l k).length := by
  induction l with
  | nil => rfl
  | cons s rest ih =>
    by_cases hs : s.id = k
    · rw [mergeFirst, if_pos hs, selectId, if_pos hs, selectId, if_pos hs]
      rfl
    · rw [mergeFirst, if_neg hs, selectId, if_neg hs, selectId, if_neg hs, ih]

/-- Claim C8 (amended).  On the agent tool path, moving item id `k` when the
destination already holds a share with that id removes the share from the
source and consolidates (sums `value` and `percentage` into the destination's
existing share, keeping the share count for that id unchanged), and appends
the share unchanged otherwise; `total_paid` shifts by the moved value.  The
direct endpoint path NEVER merges: it always appends the moved share (see the
counterexample, where the destination ends with two shares of the same id). -/
theorem claim_C8_move_merge (src dst : Participant) (k : ℕ) (itm : ItemShare)
    (hfind : findId src.items_paid k = some itm) :
    (∀ ex : ItemShare, findId dst.items_paid k = some ex →
        move_item_tool src dst [k] =
          some ({ src with items_paid := removeId src.items_paid k,
                           total_paid := src.total_paid - itm.value },
                { dst with items_paid := mergeFirst dst.items_paid k itm,
                           total_paid := dst.total_paid + itm.value })) ∧
    (findId dst.items_paid k = none →
        move_item_tool src dst [k] =
          some ({ src with items_paid := removeId src.items_paid k,
                           total_paid := src.total_paid - itm.value },
                { dst with items_paid := dst.items_paid ++ [itm],
                           total_paid := dst.total_paid + itm.value })) ∧
    ((selectId (mergeFirst dst.items_paid k itm) k).length =
        (selectId dst.items_paid k).length) ∧
    (move_item_endpoint src dst [k] =
        some ({ src with items_paid := removeId src.items_paid k,
                         total_paid := src.total_paid - itm.value },
              { dst with items_paid := dst.items_paid ++ [itm],
                         total_paid := dst.total_paid + itm.value })) := by
  refine ⟨?_, ?_, mergeFirst_select_length dst.items_paid k itm, ?_⟩
  · intro ex hex
    simp only [move_item_tool, move_loop_tool, hfind, hex]
    simp
  · intro hex
    simp only [move_item_tool, move_loop_tool, hfind, hex]
    simp
  · simp only [move_item_endpoint, move_loop_endpoint, hfind]
    simp

/-- The endpoint move on the C8 example data: the destination ends with TWO
item-2 shares (5.00 and the moved 15.00) instead of one merged share, so the
claimed consolidation does not happen on this path (totals still shift by
15.00). -/
theorem claim_C8_counterexample :
    move_item_endpoint srcP8 dstP8 [2] =
      some ({ email := "a", total_paid := 0, items_paid := [] },
            { email := "b", total_paid := 20,
              items_paid := [⟨2, 5, 20, none, none⟩, ⟨2, 15, 75, none, none⟩] }) ∧
    (selectId [(⟨2, 5, 20, none, none⟩ : ItemShare), ⟨2, 15, 75, none, none⟩] 2).length = 2 ∧
    (2 : ℕ) ≠ 1 := by
  refine ⟨?_, by simp [selectId], by norm_num⟩
  simp only [move_item_endpoint, move_loop_endpoint, srcP8, dstP8, findId, removeId]
  norm_num

/-- Witness for C8 on the spec's own example: after the tool-path move, `b`
holds a single item-2 share of value 20.00 (and 95%), `a` holds none, and
15.00 moved between the totals. -/
theorem claim_C8_witness :
    move_item_tool srcP8 dstP8 [2] =
      some ({ email := "a", total_paid := 0, items_paid := [] },
            { email := "b", total_paid := 20,
              items_paid := [⟨2, 20, 95, none, none⟩] }) := by
  have h := (claim_C8_move_merge srcP8 dstP8 2 ⟨2, 15, 75, none, none⟩ rfl).1
    ⟨2, 5, 20, none, none⟩ rfl
  rw [h]
  norm_num [srcP8, dstP8, removeId, mergeFirst]

/-! ## C5 and C6: counterexamples and witnesses -/

/-- Claim C6, as stated, is false: initialising a bill whose single item has
quantity 2 gives a per-item share sum of 10 (the per-unit price), not
`nett_price * quantity = 20`. -/
theorem claim_C6_counterexample :
    itemTotal (initialize_participants
      [{ id := 1, nett_price := 10, quantity := 2 }] ["a"]) 1 = 10 ∧
    ¬ (|(10 : ℚ) - 10 * 2| ≤ 1/100) := by
  constructor
  · simp [initialize_participants, itemTotal, initItemShare, selectId, sumValues]
  · norm_num

/-- Witness for the amended C6 at a quantity-1 item. -/
theorem claim_C6_witness :
    itemTotal (initialize_participants
      [{ id := 1, nett_price := 10, quantity := 1 }] ["a"]) 1 = 10 := by
  have h := claim_C6_item_conservation.1
    [{ id := 1, nett_price := 10, quantity := 1 }] "a" []
    { id := 1, nett_price := 10, quantity := 1 }
    (by simp) (by simp)
  simpa using h

/-- Witness for the amended C5: after the divide on `cexBill3`, every
participant's `total_paid` equals the sum of its share values. -/
theorem claim_C5_witness :
    cexBill3div.participants.map (fun p => p.total_paid) =
      cexBill3div.participants.map (fun p => sumValues p.items_paid) := by
  apply List.map_congr_left
  intro p hp
  exact claim_C5_total_matches_shares.1 cexBill3 [("a", (100 : ℚ))] cexBill3div
    cex3_divide_eq p hp

/-- Evaluating the reconciliation on `cexBill5` (helper for the C5
counterexample). -/
theorem cex5_eval :
    (evaluate_chat_splitting cexBill5).1.participants =
      [{ email := "a", total_paid := 9.99, items_paid := [share5] }] := by
  rw [evaluate_chat_splitting]
  rw [if_neg (by simp [cexBill5])]
  simp only [cexBill5]
  norm_num
  have hr : round2 ((1 : ℚ)/100) = 1/100 := round2_eq_of_cents _ 1 (by norm_num)
  have habs : |(1/100 : ℚ)| = 1/100 := abs_of_pos (by norm_num)
  have hrh : roundHalfEven ((1 : ℚ)/100 * 100) = 1 := by
    rw [show (1/100 : ℚ) * 100 = ((1 : ℤ) : ℚ) by norm_num]
    exact roundHalfEven_intCast 1
  have hlast : round2 ((999 : ℚ)/100) = 999/100 := round2_eq_of_cents _ 999 (by norm_num)
  have hone : roundHalfEven (1 : ℚ) = 1 := by
    rw [show (1 : ℚ) = ((1 : ℤ) : ℚ) by norm_num]
    exact roundHalfEven_intCast 1
  norm_num [hr, habs, hrh, hone, hlast, adjustParticipants]

/-- Claim C5, as stated, is false at `cexBill5`: after the reconciliation the
participant's `total_paid` is 9.99 while its shares still sum to 10.00. -/
theorem claim_C5_counterexample :
    (evaluate_chat_splitting cexBill5).1.participants.map
        (fun p => p.total_paid) = [9.99] ∧
    (evaluate_chat_splitting cexBill5).1.participants.map
        (fun p => sumValues p.items_paid) = [10] ∧
    (9.99 : ℚ) ≠ 10 := by
  rw [cex5_eval]
  refine ⟨by norm_num, by norm_num [sumValues, share5], by norm_num⟩

/-! ## C2: the cent-distribution reconciliation -/

theorem adjSum_split (cents_per remaining : ℤ) :
    ∀ (n k : ℕ), adjSum cents_per remaining k n =
      (n : ℤ) * cents_per + adjSum 0 remaining k n := by
  intro n
  induction n with
  | zero => intro k; simp [adjSum]
  | succ n ih =>
    intro k
    rw [adjSum, adjSum, ih (k + 1)]
    push_cast
    ring

theorem adjSum_zero (remaining : ℤ) :
    ∀ (n k : ℕ), adjSum 0 remaining k n =
      max 0 (min (remaining - (k : ℤ)) (n : ℤ)) := by
  intro n
  induction n with
  | zero =>
    intro k
    simp only [adjSum, Nat.cast_zero]
    omega
  | succ n ih =>
    intro k
    rw [adjSum, ih (k + 1)]
    push_cast
    split_ifs with h <;> omega

theorem range_sum_adjSum (cents_per remaining : ℤ) :
    ∀ (n k : ℕ),
      ((List.range n).map
        (fun i => cents_per +
          if ((k + i : ℕ) : ℤ) < remaining then 1 else 0)).sum =
      adjSum cents_per remaining k n := by
  intro n
  induction n with
  | zero => intro k; simp [adjSum]
  | succ n ih =>
    intro k
    rw [List.range_succ_eq_map, List.map_cons, List.sum_cons, List.map_map]
    rw [adjSum]
    have hcongr : (List.range n).map
        ((fun i => cents_per +
          if ((k + i : ℕ) : ℤ) < remaining then 1 else 0) ∘ Nat.succ) =
        (List.range n).map
        (fun i => cents_per +
          if (((k + 1) + i : ℕ) : ℤ) < remaining then 1 else 0) := by
      apply List.map_congr_left
      intro i _
      simp only [Function.comp]
      rw [show k + Nat.succ i = (k + 1) + i by omega]
    rw [hcongr, ih (k + 1)]
    norm_num

theorem adjustParticipants_sum (cents_per remaining : ℤ) :
    ∀ (ps : List Participant) (k : ℕ),
      (∀ p ∈ ps, IsCents p.total_paid) →
      ((adjustParticipants cents_per remaining k ps).map
          (fun p => p.total_paid)).sum =
        (ps.map (fun p => p.total_paid)).sum -
          ((adjSum cents_per remaining k ps.length : ℤ) : ℚ) / 100 := by
  intro ps
  induction ps with
  | nil => intro k _; simp [adjustParticipants, adjSum]
  | cons p rest ih =>
    intro k hc
    rw [adjustParticipants, List.map_cons, List.sum_cons, List.map_cons,
      List.sum_cons, ih (k + 1) (fun q hq => hc q (List.mem_cons_of_mem _ hq))]
    have hcent : IsCents (p.total_paid +
        (-((cents_per + if (k : ℤ) < remaining then 1 else 0 : ℤ) : ℚ)) / 100) := by
      refine (hc p (List.mem_cons_self _ _)).add
        ⟨-(cents_per + if (k : ℤ) < remaining then 1 else 0), ?_⟩
      push_cast
      ring
    rw [round2_eq_self hcent, List.length_cons, adjSum]
    push_cast
    ring

theorem adjustParticipants_get (cents_per remaining : ℤ) :
    ∀ (ps : List Participant) (k i : ℕ),
      (adjustParticipants cents_per remaining k ps)[i]? =
        (ps[i]?).map (fun p =>
          { p with total_paid := round2 (p.total_paid +
              (-((cents_per +
                if ((k + i : ℕ) : ℤ) < remaining then 1 else 0 : ℤ) : ℚ)) / 100) }) := by
  intro ps
  induction ps with
  | nil => intro k i; simp [adjustParticipants]
  | cons p rest ih =>
    intro k i
    cases i with
    | zero =>
      rw [adjustParticipants]
      simp
    | succ i =>
      rw [adjustParticipants]
      simp only [List.getElem?_cons_succ]
      rw [show k + (i + 1) = (k + 1) + i by omega]
      exact ih (k + 1) i

/-- Claim C2.  On a bill with at least one participant, two-decimal totals
and `nett_amount`, with `d` the over-collection in cents: when the totals
over-collect by at least one cent, `evaluate_chat_splitting` subtracts from
each participant `i` the integer-cent adjustment `pyAdj d n i`
(`d // n` cents, plus one extra cent for the first `d % n` participants);
the adjustments sum to `d`, differ pairwise by at most one cent, and the
corrected totals sum to `nett_amount` exactly, which is also the returned
value.  When the difference is below one cent, the bill is returned
unmodified together with the uncorrected sum. -/
theorem claim_C2_post_split_reconciliation (b : Bill)
    (hne : b.participants ≠ [])
    (hcents : ∀ p ∈ b.participants, IsCents p.total_paid)
    (hnett : IsCents b.nett_amount) :
    ((1 : ℚ)/100 ≤
        |(b.participants.map (fun p => p.total_paid)).sum - b.nett_amount| →
      ∀ d : ℤ, (d : ℚ) =
          ((b.participants.map (fun p => p.total_paid)).sum - b.nett_amount) * 100 →
        (∀ i : ℕ,
          ((evaluate_chat_splitting b).1.participants[i]?).map
              (fun p => p.total_paid) =
            (b.participants[i]?).map (fun p =>
              p.total_paid - ((pyAdj d b.participants.length i : ℤ) : ℚ) / 100)) ∧
        ((List.range b.participants.length).map
            (fun i => pyAdj d b.participants.length i)).sum = d ∧
        (∀ i j : ℕ, |pyAdj d b.participants.length i -
            pyAdj d b.participants.length j| ≤ 1) ∧
        (∀ i : ℕ, ((i : ℤ) < d % (b.participants.length : ℤ) →
            pyAdj d b.participants.length i =
              d / (b.participants.length : ℤ) + 1) ∧
          (d % (b.participants.length : ℤ) ≤ (i : ℤ) →
            pyAdj d b.participants.length i = d / (b.participants.length : ℤ))) ∧
        ((evaluate_chat_splitting b).1.participants.map
            (fun p => p.total_paid)).sum = b.nett_amount ∧
        (evaluate_chat_splitting b).2 = some b.nett_amount) ∧
    (|(b.participants.map (fun p => p.total_paid)).sum - b.nett_amount| < 1/100 →
      evaluate_chat_splitting b =
        (b, some ((b.participants.map (fun p => p.total_paid)).sum))) := by
  have hnemp : ¬ b.participants.isEmpty = true := by
    cases hps : b.participants with
    | nil => exact absurd hps hne
    | cons p rest => simp [hps]
  have hSc : IsCents ((b.participants.map (fun p => p.total_paid)).sum) := by
    apply IsCents.listSum
    intro x hx
    obtain ⟨p, hp, rfl⟩ := List.mem_map.mp hx
    exact hcents p hp
  have hdc : IsCents ((b.participants.map (fun p => p.total_paid)).sum -
      b.nett_amount) := hSc.sub hnett
  have hr2 : round2 ((b.participants.map (fun p => p.total_paid)).sum -
      b.nett_amount) =
      (b.participants.map (fun p => p.total_paid)).sum - b.nett_amount :=
    round2_eq_self hdc
  constructor
  · intro hge d hd
    have hnpos : 0 < b.participants.length := by
      cases hps : b.participants with
      | nil => exact absurd hps hne
      | cons p rest => simp [hps]
    have hdne : d ≠ 0 := by
      intro h0
      rw [h0] at hd
      push_cast at hd
      have hzero : (b.participants.map (fun p => p.total_paid)).sum -
          b.nett_amount = 0 := by linarith
      rw [hzero] at hge
      norm_num at hge
    have hizne : ((b.participants.length : ℤ)) ≠ 0 := by
      exact_mod_cast hnpos.ne'
    have hizpos : (0 : ℤ) < (b.participants.length : ℤ) := by exact_mod_cast hnpos
    have heval : evaluate_chat_splitting b =
        (⟨b.items, b.nett_amount, b.rounding_adj,
            adjustParticipants (d / (b.participants.length : ℤ))
              (d % (b.participants.length : ℤ)) 0 b.participants,
            b.split_method⟩,
          some (((adjustParticipants (d / (b.participants.length : ℤ))
              (d % (b.participants.length : ℤ)) 0 b.participants).map
                (fun p => p.total_paid)).sum)) := by
      simp only [evaluate_chat_splitting, if_neg hnemp]
      rw [hr2, if_pos hge, ← hd, roundHalfEven_intCast, if_pos hdne]
    have hadj : adjSum (d / (b.participants.length : ℤ))
        (d % (b.participants.length : ℤ)) 0 b.participants.length = d := by
      rw [adjSum_split, adjSum_zero]
      have h1 : 0 ≤ d % (b.participants.length : ℤ) := Int.emod_nonneg d hizne
      have h2 : d % (b.participants.length : ℤ) < (b.participants.length : ℤ) :=
        Int.emod_lt_of_pos d hizpos
      push_cast
      rw [sub_zero, min_eq_left (le_of_lt h2), max_eq_right h1]
      exact Int.ediv_add_emod d _
    have hsum_adj : ((adjustParticipants (d / (b.participants.length : ℤ))
        (d % (b.participants.length : ℤ)) 0 b.participants).map
          (fun p => p.total_paid)).sum = b.nett_amount := by
      rw [adjustParticipants_sum _ _ b.participants 0 hcents, hadj]
      have hd100 : (d : ℚ) / 100 =
          (b.participants.map (fun p => p.total_paid)).sum - b.nett_amount := by
        rw [hd]
        ring
      rw [hd100]
      ring
    refine ⟨?_, ?_, ?_, ?_, ?_, ?_⟩
    · intro i
      rw [heval]
      dsimp only
      rw [adjustParticipants_get _ _ b.participants 0 i, Option.map_map]
      cases hgi : b.participants[i]? with
      | none => rfl
      | some p =>
        have hpmem : p ∈ b.participants := by
          obtain ⟨hlt, rfl⟩ := List.getElem?_eq_some.mp hgi
          exact List.getElem_mem hlt
        simp only [Option.map_some', Function.comp]
        congr 1
        simp only [Nat.zero_add]
        rw [round2_eq_self ((hcents p hpmem).add
          ⟨-(d / (b.participants.length : ℤ) +
              if (i : ℤ) < d % (b.participants.length : ℤ) then 1 else 0), by
            push_cast
            ring⟩)]
        rw [pyAdj]
        push_cast
        ring
    · have hfun : (List.range b.participants.length).map
          (fun i => pyAdj d b.participants.length i) =
          (List.range b.participants.length).map
          (fun i => d / (b.participants.length : ℤ) +
            if ((0 + i : ℕ) : ℤ) < d % (b.participants.length : ℤ) then 1 else 0) := by
        apply List.map_congr_left
        intro i _
        rw [pyAdj]
        norm_num
      rw [hfun, range_sum_adjSum, hadj]
    · intro i j
      rw [pyAdj, pyAdj]
      split_ifs <;> simp
    · intro i
      constructor
      · intro h
        rw [pyAdj, if_pos h]
      · intro h
        rw [pyAdj, if_neg (not_lt.mpr h), add_zero]
    · rw [heval]
      dsimp only
      exact hsum_adj
    · rw [heval]
      dsimp only
      rw [hsum_adj]
  · intro hlt
    simp only [evaluate_chat_splitting, if_neg hnemp]
    rw [hr2, if_neg (not_le.mpr hlt)]

/-- Witness for C2 on `witBill2`: the totals over-collect by exactly one
cent, and after the reconciliation they sum to `nett_amount` exactly. -/
theorem claim_C2_witness :
    (1 : ℚ)/100 ≤
      |(witBill2.participants.map (fun p => p.total_paid)).sum -
        witBill2.nett_amount| ∧
    ((evaluate_chat_splitting witBill2).1.participants.map
        (fun p => p.total_paid)).sum = witBill2.nett_amount := by
  have hshape : (witBill2.participants.map (fun p => p.total_paid)).sum -
      witBill2.nett_amount = 1/100 := by
    simp [witBill2]
    norm_num
  have hge : (1 : ℚ)/100 ≤
      |(witBill2.participants.map (fun p => p.total_paid)).sum -
        witBill2.nett_amount| := by
    rw [hshape, abs_of_pos (by norm_num)]
  refine ⟨hge, ?_⟩
  have h := (claim_C2_post_split_reconciliation witBill2 (by simp [witBill2])
      (by
        intro p hp
        simp only [witBill2, List.mem_cons, List.not_mem_nil, or_false] at hp
        rcases hp with rfl | rfl <;> exact ⟨1000, by norm_num⟩)
      ⟨1999, by norm_num [witBill2]⟩).1 hge 1 (by rw [hshape]; norm_num)
  exact h.2.2.2.2.1

/-! ## C7: equal split -/

theorem sum_map_const {α : Type} (l : List α) (c : ℚ) :
    (l.map (fun _ => c)).sum = (l.length : ℚ) * c := by
  induction l with
  | nil => simp
  | cons a t ih =>
    rw [List.map_cons, List.sum_cons, ih, List.length_cons]
    push_cast
    ring

theorem dictInsert_not_mem {m : List (String × ℚ)} {k : String} {v : ℚ}
    (h : ∀ pr ∈ m, pr.1 ≠ k) : dictInsert m k v = m ++ [(k, v)] := by
  induction m with
  | nil => rfl
  | cons pr rest ih =>
    rw [dictInsert, if_neg (h pr (List.mem_cons_self _ _)), List.cons_append,
      ih (fun q hq => h q (List.mem_cons_of_mem _ hq))]

theorem buildEqualDict_fold (base : ℚ) :
    ∀ (ps : List Participant) (m : List (String × ℚ)),
      (emailsOf ps).Nodup →
      (∀ p ∈ ps, ∀ pr ∈ m, pr.1 ≠ p.email) →
      ps.foldl (fun m p => dictInsert m p.email base) m =
        m ++ ps.map (fun p => (p.email, base)) := by
  intro ps
  induction ps with
  | nil => intro m _ _; simp
  | cons p rest ih =>
    intro m hnd hdisj
    have hnd2 : (emailsOf rest).Nodup ∧ p.email ∉ emailsOf rest := by
      simp only [emailsOf, List.map_cons, List.nodup_cons] at hnd
      exact ⟨hnd.2, hnd.1⟩
    rw [List.foldl_cons, dictInsert_not_mem (fun pr hpr => hdisj p (List.mem_cons_self _ _) pr hpr)]
    rw [ih (m ++ [(p.email, base)]) hnd2.1 ?hdisj2]
    · rw [List.map_cons, List.append_assoc]
      rfl
    case hdisj2 =>
      intro q hq pr hpr
      rcases List.mem_append.mp hpr with h1 | h1
      · exact hdisj q (List.mem_cons_of_mem _ hq) pr h1
      · have : pr = (p.email, base) := by simpa using h1
        rw [this]
        intro hcontra
        dsimp only at hcontra
        exact hnd2.2 (by rw [hcontra]; exact List.mem_map_of_mem _ hq)

theorem buildEqualDict_eq {ps : List Participant} (base : ℚ)
    (hnd : (emailsOf ps).Nodup) :
    buildEqualDict ps base = ps.map (fun p => (p.email, base)) := by
  rw [buildEqualDict, buildEqualDict_fold base ps [] hnd (fun p _ pr hpr => by cases hpr)]
  rfl

theorem emailsOf_take (ps : List Participant) (n : ℕ) :
    emailsOf (ps.take n) = (emailsOf ps).take n := by
  rw [emailsOf, emailsOf, List.map_take]

theorem nodup_emails_take {ps : List Participant} (n : ℕ)
    (hnd : (emailsOf ps).Nodup) : (emailsOf (ps.take n)).Nodup := by
  rw [emailsOf_take]
  exact hnd.sublist (List.take_sublist n _)

/-- Claim C7 (amended).  Both paths default `num_ways = 0` to the participant
count and reject `num_ways` above the count; for `0 < num_ways ≤ count` each
of the first `num_ways` participants (bill order) is assigned the exact,
unrounded percentage `100 / num_ways` before delegating to the percentage
engine.  However, NEGATIVE `num_ways` does not fail with an invalid-count
error as claimed: the endpoint path silently treats it as the default (see
the counterexample), and the tool path forwards a garbage percentage map
whose rejection comes from the percentage-sum check instead. -/
theorem claim_C7_equal_split (b : Bill) (num_ways : ℤ)
    (hnd : (emailsOf b.participants).Nodup) :
    ((b.participants.length : ℤ) < num_ways →
      split_equally_tool b num_ways =
        Except.error ("Cannot split: more ways than participants") ∧
      split_equally_endpoint b num_ways =
        Except.error ("Cannot split: more ways than participants")) ∧
    (split_equally_tool b 0 =
      divide_items b (b.participants.map
        (fun p => (p.email, 100 / (b.participants.length : ℚ))))) ∧
    (num_ways ≤ 0 →
      split_equally_endpoint b num_ways =
        divide_items b (b.participants.map
          (fun p => (p.email, 100 / (b.participants.length : ℚ))))) ∧
    (0 < num_ways → num_ways ≤ (b.participants.length : ℤ) →
      split_equally_tool b num_ways =
        divide_items b ((b.participants.take num_ways.toNat).map
          (fun p => (p.email, 100 / (num_ways : ℚ)))) ∧
      split_equally_endpoint b num_ways =
        divide_items b ((b.participants.take num_ways.toNat).map
          (fun p => (p.email, 100 / (num_ways : ℚ))))) ∧
    (num_ways < 0 →
      split_equally_tool b num_ways =
        Except.error ("Error: Percentages must sum to 100%")) := by
  refine ⟨?_, ?_, ?_, ?_, ?_⟩
  · intro hlt
    have hne0 : num_ways ≠ 0 := by omega
    constructor
    · simp only [split_equally_tool]
      rw [if_neg hne0, if_pos hlt]
    · have hpos : 0 < num_ways := by omega
      simp only [split_equally_endpoint]
      rw [if_pos hpos, if_pos hlt]
  · simp only [split_equally_tool]
    simp only [if_true]
    rw [if_neg (lt_irrefl ((b.participants.length : ℤ)))]
    rw [pySlice, if_pos (Int.natCast_nonneg _), Int.toNat_natCast, List.take_length]
    rw [buildEqualDict_eq _ hnd]
    norm_num
  · intro hle
    have hnpos : ¬ (0 < num_ways) := not_lt.mpr hle
    simp only [split_equally_endpoint]
    rw [if_neg hnpos, if_neg (lt_irrefl ((b.participants.length : ℤ)))]
    rw [pySlice, if_pos (Int.natCast_nonneg _), Int.toNat_natCast, List.take_length]
    rw [buildEqualDict_eq _ hnd]
    norm_num
  · intro hpos hle
    have hne0 : num_ways ≠ 0 := by omega
    have hndt : (emailsOf (b.participants.take num_ways.toNat)).Nodup :=
      nodup_emails_take _ hnd
    constructor
    · simp only [split_equally_tool]
      rw [if_neg hne0, if_neg (not_lt.mpr hle)]
      rw [pySlice, if_pos (le_of_lt hpos)]
      rw [buildEqualDict_eq _ hndt]
    · simp only [split_equally_endpoint]
      rw [if_pos hpos, if_neg (not_lt.mpr hle)]
      rw [pySlice, if_pos (le_of_lt hpos)]
      rw [buildEqualDict_eq _ hndt]
  · intro hneg
    have hne0 : num_ways ≠ 0 := by omega
    have hnlt : ¬ ((b.participants.length : ℤ) < num_ways) := by omega
    simp only [split_equally_tool]
    rw [if_neg hne0, if_neg hnlt]
    rw [pySlice, if_neg (not_le.mpr hneg)]
    set chosen := b.participants.take (b.participants.length - (-num_ways).toNat)
      with hchosen
    have hndc : (emailsOf chosen).Nodup := nodup_emails_take _ hnd
    rw [buildEqualDict_eq _ hndc]
    have hkq : ((num_ways : ℚ)) < 0 := by exact_mod_cast hneg
    have hbase : (100 : ℚ) / (num_ways : ℚ) ≤ 0 :=
      le_of_lt (div_neg_of_pos_of_neg (by norm_num) hkq)
    have hsum : ((chosen.map (fun p => (p.email, 100 / (num_ways : ℚ)))).map
        (fun pr => pr.2)).sum = (chosen.length : ℚ) * (100 / (num_ways : ℚ)) := by
      rw [List.map_map]
      exact sum_map_const chosen _
    rw [divide_items, if_pos ?hcond]
    case hcond =>
      rw [hsum]
      have hsle : (chosen.length : ℚ) * (100 / (num_ways : ℚ)) ≤ 0 :=
        mul_nonpos_iff.mpr (Or.inl ⟨by positivity, hbase⟩)
      have habs := neg_abs_le
        ((chosen.length : ℚ) * (100 / (num_ways : ℚ)) - 100)
      have : (chosen.length : ℚ) * (100 / (num_ways : ℚ)) - 100 ≤ -100 := by
        linarith
      linarith [abs_nonneg ((chosen.length : ℚ) * (100 / (num_ways : ℚ)) - 100)]

/-- Claim C7, as stated, is false on the endpoint path: `num_ways = -1` is
non-positive, yet the split succeeds (it is silently treated as "split among
all participants") instead of failing with an invalid-count error. -/
theorem claim_C7_counterexample :
    (-1 : ℤ) ≤ 0 ∧
    (split_equally_endpoint cexBill7 (-1)).toOption.isSome = true := by
  refine ⟨by norm_num, ?_⟩
  have hsplit : split_equally_endpoint cexBill7 (-1) =
      divide_items cexBill7 [("a", (50 : ℚ)), ("b", (50 : ℚ))] := by
    simp only [split_equally_endpoint, cexBill7]
    norm_num
    simp [pySlice, buildEqualDict, dictInsert]
  rw [hsplit]
  rw [divide_items_ok_eq cexBill7 [("a", (50 : ℚ)), ("b", (50 : ℚ))]
    (by simp; norm_num) (by simp [cexBill7, emailsOf]) (by simp [keysOf])
    (by
      intro pr hpr
      simp only [List.mem_cons, List.not_mem_nil, or_false] at hpr
      rcases hpr with rfl | rfl <;> simp [cexBill7, emailsOf])]
  rfl

/-- Witness for the amended C7: a valid positive `num_ways = 1` on a
two-participant bill assigns the single chosen participant the exact
percentage `100 / 1`. -/
theorem claim_C7_witness :
    (0 : ℤ) < 1 ∧ (1 : ℤ) ≤ (cexBill7.participants.length : ℤ) ∧
    split_equally_tool cexBill7 1 =
      divide_items cexBill7 ((cexBill7.participants.take (1 : ℤ).toNat).map
        (fun p => (p.email, 100 / ((1 : ℤ) : ℚ)))) := by
  refine ⟨by norm_num, by simp [cexBill7], ?_⟩
  exact ((claim_C7_equal_split cexBill7 1
    (by simp [cexBill7, emailsOf])).2.2.2.1 (by norm_num)
    (by simp [cexBill7])).1

end BillSplitter
